import Mathlib

/-!
# Verification of the NNUE `AffineTransform` layer (`src/nnue/layers/affine_transform.h`)

This file gives a shallow embedding of the affine-transformation layer of the
NNUE evaluation function: the forward-propagation kernels (the portable scalar
fallback and the vectorized SSSE3 / AVX2 / AVX512 / VNNI / SSE2 / MMX / NEON
paths), parameter deserialization (`ReadParameters`), the structural hash
(`GetHashValue`), and the shared propagation-buffer layout
(`kSelfBufferSize` / `kBufferSize`).

Machine integers are modelled as `Int` / `Nat` with explicit wraparound:
`wrap32` is signed 32-bit wraparound, `wrap16` signed 16-bit wraparound,
`sat16` signed 16-bit saturation.  Input bytes (`std::uint8_t`) are `Nat`
values in `[0, 256)`; weights (`std::int8_t`) and biases (`std::int32_t`)
are `Int` values.  Weight matrices are kept flat (row-major with row length
`kPaddedInputDimensions`), exactly as the `weights_` array in the source;
row `i` starts at offset `i * P`, mirroring `offset = i * kPaddedInputDimensions`.

`nnue_common.h` is not part of the given sources; the helpers it declares
(`CeilToMultiple`, `read_little_endian`, `kCacheLineSize`) are modelled from
the specification, as noted on their doc comments.
-/

namespace NNUE

/-- Signed 32-bit wraparound (two's complement), used to model `std::int32_t`
arithmetic and wrapping SIMD lane additions. -/
def wrap32 (x : Int) : Int := (x + 2147483648) % 4294967296 - 2147483648

/-- Signed 16-bit wraparound, used to model the modular `int16` lane addition
performed by NEON `vmlal_s8`. -/
def wrap16 (x : Int) : Int := (x + 32768) % 65536 - 32768

/-- Signed 16-bit saturation, the saturating sum of `_mm_maddubs_epi16` /
`_mm256_maddubs_epi16` / `_mm512_maddubs_epi16`. -/
def sat16 (x : Int) : Int := max (-32768) (min 32767 x)

/-- Reinterpret an unsigned byte as a signed 8-bit value (`std::int8_t`). -/
def toInt8 (b : Nat) : Int := if b < 128 then (b : Int) else (b : Int) - 256

/-- Reinterpret an unsigned 32-bit value as a signed `std::int32_t`. -/
def toInt32 (u : Nat) : Int := if u < 2147483648 then (u : Int) else (u : Int) - 4294967296

/-- The product of one unsigned input byte with one signed weight byte.  This
is the elementary term of every kernel: `weight` is `std::int8_t`, `input`
is `std::uint8_t`, and the product is exact (it fits easily in 32 bits). -/
def mulUB (a : Nat) (b : Int) : Int := (a : Int) * b

/-- The pointwise product list `input[j] * weight[j]` (unsigned byte times
signed byte), the stream every kernel reduces. -/
def prods (ins : List Nat) (row : List Int) : List Int := List.zipWith mulUB ins row

/-- The pointwise product list with the input byte reinterpreted as signed,
as done by the NEON kernel's `vmull_s8`/`vmlal_s8` (which multiply
`int8x8_t` values; the input pointer is cast to `const int8x8_t*`). -/
def prodsS (ins : List Nat) (row : List Int) : List Int :=
  List.zipWith (fun a b => toInt8 a * b) ins row

/-- Saturating pairwise horizontal sums: `_mm_maddubs_epi16` applied to a
product stream produces `sat16 (p0 + p1)` for each adjacent pair. -/
def satPairs : List Int → List Int
  | p0 :: p1 :: ps => sat16 (p0 + p1) :: satPairs ps
  | _ => []

/-- Exact pairwise horizontal sums: `_mm_madd_epi16 (…, kOnes)` applied to
16-bit lanes adds adjacent pairs into 32-bit lanes; the sum of two `int16`
values is exact in `int32`.  The same function models the exact pairwise
accumulation of NEON `vpadalq_s16` and of `_mm_madd_epi16` in the SSE2 path
(whose `int16 × int16` products summed in pairs cannot overflow `int32`). -/
def maddPairs : List Int → List Int
  | p0 :: p1 :: ps => (p0 + p1) :: maddPairs ps
  | _ => []

/-- Exact 4-element horizontal sums: VNNI `_mm512_dpbusd_epi32` /
`_mm256_dpbusd_epi32` sum four adjacent unsigned×signed byte products
(each fits in `int16`) into one 32-bit lane, without saturation. -/
def quadPairs : List Int → List Int
  | p0 :: p1 :: p2 :: p3 :: ps => (p0 + p1 + p2 + p3) :: quadPairs ps
  | _ => []

/-- Lanewise wrapping 32-bit addition: `_mm_add_epi32` and its 256/512-bit
counterparts. -/
def addEpi32 (xs ys : List Int) : List Int := List.zipWith (fun a b => wrap32 (a + b)) xs ys

/-- `_mm_maddubs_epi16 a b`: multiply unsigned bytes of `a` with signed bytes
of `b` and saturating-add adjacent pairs into 16-bit lanes. -/
def mm_maddubs_epi16 (a : List Nat) (b : List Int) : List Int := satPairs (prods a b)

/-- One step of `m128_add_dpbusd_epi32` / `m256_add_dpbusd_epi32` /
`m512_add_dpbusd_epi32` without VNNI: `maddubs` then `madd` with ones, then a
wrapping lane add onto the accumulator. -/
def add_dpbusd_epi32 (acc : List Int) (a : List Nat) (b : List Int) : List Int :=
  addEpi32 acc (maddPairs (mm_maddubs_epi16 a b))

/-- One step of the VNNI variant `_mm512_dpbusd_epi32 acc a b`: four exact
byte products per 32-bit lane, added modularly onto the accumulator. -/
def add_dpbusd_vnni (acc : List Int) (a : List Nat) (b : List Int) : List Int :=
  addEpi32 acc (quadPairs (prods a b))

/-- The chunk loop `for (j = 0; j < kNumChunks; ++j) upd(acc, in[j], row[j])`
common to all vectorized kernels: `n` is the chunk count, `w` the chunk width
in bytes, and `upd` the per-chunk accumulator update. -/
def foldChunks (w : Nat) (upd : List Int → List Nat → List Int → List Int) :
    Nat → List Nat → List Int → List Int → List Int
  | 0, _, _, acc => acc
  | Nat.succ n, ins, row, acc =>
      foldChunks w upd n (ins.drop w) (row.drop w) (upd acc (ins.take w) (row.take w))

/-- `m128_hadd sum bias` as written in the source: two 32-bit shuffles with
wrapping adds, then the extracted lane 0 plus the bias. -/
def m128_hadd (s : List Int) (bias : Int) : Int :=
  let a := addEpi32 s [s.getD 2 0, s.getD 3 0, s.getD 0 0, s.getD 1 0]
  let b := addEpi32 a [a.getD 1 0, a.getD 0 0, a.getD 3 0, a.getD 2 0]
  wrap32 (b.getD 0 0 + bias)

/-- Horizontal reduction of an accumulator register plus bias.  Models
`m128_hadd` / `m256_hadd` / `m512_hadd` and the per-output lanes of
`m128_haddx4` / `m256_haddx4` / `m512_haddx4`: each is a tree of wrapping
32-bit additions over the lanes followed by a bias addition, and modular
addition makes every such tree equal to the flat lane sum (the lemma
`m128_hadd_eq` below checks this against the literal `m128_hadd`). -/
def haddBias (s : List Int) (bias : Int) : Int := wrap32 (s.sum + bias)

/-- The row reduction of the maddubs-based kernels (SSSE3 `w = 16`, AVX2
`w = 32`, AVX512 `w = 64`): zeroed lanes, `kNumChunks = len / w` chunk steps
of `add_dpbusd_epi32`. -/
def maddubsRow (w : Nat) (ins : List Nat) (row : List Int) : List Int :=
  foldChunks w add_dpbusd_epi32 (ins.length / w) ins row (List.replicate (w / 4) 0)

/-- The row reduction of the VNNI kernels (AVX2-VNNI `w = 32`, AVX512-VNNI
`w = 64`). -/
def vnniRow (w : Nat) (ins : List Nat) (row : List Int) : List Int :=
  foldChunks w add_dpbusd_vnni (ins.length / w) ins row (List.replicate (w / 4) 0)

/-- The output dispatch shared by the SSSE3/AVX2/AVX512 branches of
`Propagate`: a 4-way blocked path when `kOutputDimensions % 4 == 0`
(`haddx4` combining, one row reduction per output), a single-accumulator path
when `kOutputDimensions == 1`, and otherwise the `assert(false)` branch,
modelled as `none`. -/
def propagateSimd (rowFn : List Nat → List Int → List Int) (O P : Nat)
    (biases : List Int) (weights : List Int) (input : List Nat) : Option (List Int) :=
  if O % 4 = 0 then
    some ((List.range O).map fun i =>
      haddBias (rowFn input (weights.drop (i * P))) (biases.getD i 0))
  else if O = 1 then
    some [haddBias (rowFn input (weights.drop 0)) (biases.getD 0 0)]
  else
    none

/-- The SSSE3 branch of `Propagate` (chunk width `kSimdWidth = 16`). -/
def propagateSSSE3 (O P : Nat) (biases : List Int) (weights : List Int)
    (input : List Nat) : Option (List Int) :=
  propagateSimd (maddubsRow 16) O P biases weights input

/-- The AVX2 branch of `Propagate` without VNNI (chunk width `kSimdWidth = 32`). -/
def propagateAVX2 (O P : Nat) (biases : List Int) (weights : List Int)
    (input : List Nat) : Option (List Int) :=
  propagateSimd (maddubsRow 32) O P biases weights input

/-- The AVX2 branch with `USE_VNNI`. -/
def propagateAVX2vnni (O P : Nat) (biases : List Int) (weights : List Int)
    (input : List Nat) : Option (List Int) :=
  propagateSimd (vnniRow 32) O P biases weights input

/-- The AVX512 branch of `Propagate` without VNNI: 64-byte chunks
(`kNumChunks512 = kPaddedInputDimensions / (kSimdWidth * 2)`) when
`kPaddedInputDimensions % (kSimdWidth * 2) == 0`, otherwise the AVX2-width
fallback documented in the source. -/
def propagateAVX512 (O P : Nat) (biases : List Int) (weights : List Int)
    (input : List Nat) : Option (List Int) :=
  if P % 64 = 0 then propagateSimd (maddubsRow 64) O P biases weights input
  else propagateSimd (maddubsRow 32) O P biases weights input

/-- The AVX512 branch with `USE_VNNI`. -/
def propagateAVX512vnni (O P : Nat) (biases : List Int) (weights : List Int)
    (input : List Nat) : Option (List Int) :=
  if P % 64 = 0 then propagateSimd (vnniRow 64) O P biases weights input
  else propagateSimd (vnniRow 32) O P biases weights input

/-- One chunk step of the SSE2/MMX path: the chunk's weight bytes are
sign-extended (`_mm_cmpgt_epi8` + `_mm_unpacklo/hi_epi8`), the input bytes
zero-extended, and `_mm_madd_epi16` forms exact pairwise product sums; the low
half of the chunk goes to `sum_lo`, the high half to `sum_hi`. -/
def sse2Step (w : Nat) (lo hi : List Int) (a : List Nat) (b : List Int) : List Int × List Int :=
  (addEpi32 lo (maddPairs (prods (a.take (w / 2)) (b.take (w / 2)))),
   addEpi32 hi (maddPairs (prods (a.drop (w / 2)) (b.drop (w / 2)))))

/-- The chunk loop of the SSE2 (`w = 16`) and MMX (`w = 8`) path, carrying the
two accumulators `sum_lo` and `sum_hi`. -/
def sse2Fold (w : Nat) : Nat → List Nat → List Int → List Int × List Int → List Int × List Int
  | 0, _, _, acc => acc
  | Nat.succ n, ins, row, acc =>
      sse2Fold w n (ins.drop w) (row.drop w) (sse2Step w acc.1 acc.2 (ins.take w) (row.take w))

/-- One output of the SSE2/MMX path: `sum_lo` starts as the bias in lane 0
(`_mm_cvtsi32_si128 (biases_[i])`), `sum_hi` as zeros; after the chunk loop the
two registers are added lanewise and horizontally reduced by wrapping shuffled
adds (flat lane sum modulo 2^32). -/
def sse2Row (w : Nat) (ins : List Nat) (row : List Int) (bias : Int) : Int :=
  let acc := sse2Fold w (ins.length / w) ins row
      (bias :: List.replicate (w / 4 - 1) 0, List.replicate (w / 4) 0)
  wrap32 (addEpi32 acc.1 acc.2).sum

/-- The SSE2 branch of `Propagate` (the generic loop over all outputs;
`kSimdWidth = 16`). -/
def propagateSSE2 (O P : Nat) (biases : List Int) (weights : List Int)
    (input : List Nat) : List Int :=
  (List.range O).map fun i => sse2Row 16 input (weights.drop (i * P)) (biases.getD i 0)

/-- The MMX branch of `Propagate` (`kSimdWidth = 8`, `__m64` registers). -/
def propagateMMX (O P : Nat) (biases : List Int) (weights : List Int)
    (input : List Nat) : List Int :=
  (List.range O).map fun i => sse2Row 8 input (weights.drop (i * P)) (biases.getD i 0)

/-- One 16-byte NEON chunk: `vmull_s8` multiplies the first 8 signed input
bytes with the first 8 weight bytes, `vmlal_s8` adds the products of the
second 8 with modular `int16` lane addition. -/
def neonMull (a : List Nat) (b : List Int) : List Int :=
  List.zipWith (fun p q => wrap16 (p + q))
    (prodsS (a.take 8) (b.take 8)) (prodsS (a.drop 8) (b.drop 8))

/-- One chunk step of the NEON path: `vpadalq_s16` adds adjacent `int16`
pairs of the product register into the four `int32` accumulator lanes. -/
def neonStep (acc : List Int) (a : List Nat) (b : List Int) : List Int :=
  addEpi32 acc (maddPairs (neonMull a b))

/-- One output of the NEON path: `int32x4_t sum = {biases_[i]}` (bias in lane
0, other lanes zero), the chunk loop, then `sum[0]+sum[1]+sum[2]+sum[3]` with
wrapping `int` addition. -/
def neonRow (ins : List Nat) (row : List Int) (bias : Int) : Int :=
  wrap32 (foldChunks 16 neonStep (ins.length / 16) ins row (bias :: [0, 0, 0])).sum

/-- The NEON branch of `Propagate` (the generic loop over all outputs). -/
def propagateNEON (O P : Nat) (biases : List Int) (weights : List Int)
    (input : List Nat) : List Int :=
  (List.range O).map fun i => neonRow input (weights.drop (i * P)) (biases.getD i 0)

/-- The inner loop of the portable scalar fallback:
`sum = biases_[i]; for (j < kInputDimensions) sum += weights_[offset+j] * input[j]`,
with the `std::int32_t` accumulator wrapping at each step. -/
def scalarDot (ws : List Int) (ins : List Nat) (acc : Int) : Int :=
  match ws, ins with
  | w :: ws', i :: ins' => scalarDot ws' ins' (wrap32 (acc + w * (i : Int)))
  | _, _ => acc

/-- The portable scalar fallback branch of `Propagate`: for each output `i`,
the bias plus the dot product over `j < kInputDimensions` (note: the real,
not the padded, input dimension). -/
def propagateScalar (O d P : Nat) (biases : List Int) (weights : List Int)
    (input : List Nat) : List Int :=
  (List.range O).map fun i =>
    scalarDot ((weights.drop (i * P)).take d) (input.take d) (biases.getD i 0)

/-! ## Parameter deserialization (`ReadParameters`) -/

/-- The state of the parameter `std::istream`: the bytes still to be read and
the fail flag.  Modelled from the spec: the stream interface itself is standard
library code, not part of the given sources.  A short read consumes the
remaining bytes and raises the fail flag; a failed stream delivers nothing. -/
structure ByteStream where
  data : List Nat
  fail : Bool
deriving DecidableEq

/-- Read `n` raw bytes from the stream (`stream.read`). -/
def readBytes (n : Nat) (s : ByteStream) : List Nat × ByteStream :=
  if s.fail then ([], s)
  else if n ≤ s.data.length then (s.data.take n, ⟨s.data.drop n, false⟩)
  else ([], ⟨[], true⟩)

/-- Little-endian assembly of a byte list into an unsigned value. -/
def leNat : List Nat → Nat
  | [] => 0
  | b :: bs => b + 256 * leNat bs

/-- Modelled from the spec: `read_little_endian<std::int32_t>` of
`nnue_common.h` (not under `src/`), reading one little-endian signed 32-bit
value; on a failed read the delivered value is unspecified in the source
(an uninitialized buffer) and is modelled as 0. -/
def read_little_endian_i32 (s : ByteStream) : Int × ByteStream :=
  let r := readBytes 4 s
  (toInt32 (leNat r.1), r.2)

/-- Modelled from the spec: `read_little_endian<std::int8_t>` of
`nnue_common.h` (not under `src/`), reading one signed 8-bit value. -/
def read_little_endian_i8 (s : ByteStream) : Int × ByteStream :=
  let r := readBytes 1 s
  (toInt8 (leNat r.1), r.2)

/-- `n` consecutive reads, collecting the values in order: the two read loops
of `ReadParameters`.  Every iteration performs its read unconditionally,
exactly as the source loops do. -/
def readSeq (reader : ByteStream → Int × ByteStream) : Nat → ByteStream → List Int × ByteStream
  | 0, s => ([], s)
  | n + 1, s =>
      let r := reader s
      let rest := readSeq reader n r.2
      (r.1 :: rest.1, rest.2)

/-- The loaded parameters of one affine layer: `biases_` and the flat
row-major `weights_` array. -/
structure LayerData where
  biases : List Int
  weights : List Int
deriving DecidableEq

/-- `AffineTransform::ReadParameters`: delegate to the predecessor; on its
failure return `false` without touching the stream or the arrays; otherwise
read `kOutputDimensions` biases then
`kOutputDimensions * kPaddedInputDimensions` weights and report
`!stream.fail()`. -/
def ReadParameters (prevRead : ByteStream → Bool × ByteStream) (O P : Nat)
    (L : LayerData) (s : ByteStream) : Bool × LayerData × ByteStream :=
  let pr := prevRead s
  if !pr.1 then (false, L, pr.2)
  else
    let rb := readSeq read_little_endian_i32 O pr.2
    let rw := readSeq read_little_endian_i8 (O * P) rb.2
    (!rw.2.fail, ⟨rb.1, rw.1⟩, rw.2)

/-- Little-endian serialization of a signed 32-bit value to 4 bytes (the
documented external layout of a bias entry). -/
def encodeLE32 (x : Int) : List Nat :=
  [(x % 4294967296).toNat % 256,
   (x % 4294967296).toNat / 256 % 256,
   (x % 4294967296).toNat / 65536 % 256,
   (x % 4294967296).toNat / 16777216 % 256]

/-- Serialization of a signed 8-bit value to one byte. -/
def encodeI8 (x : Int) : List Nat := [(x % 256).toNat]

/-- The documented binary layout of one layer's parameter block: all biases as
little-endian 32-bit values, then all weights as 8-bit values, row-major, with
no padding or delimiters. -/
def serializeLayer (biases weights : List Int) : List Nat :=
  (biases.map encodeLE32).flatten ++ (weights.map encodeI8).flatten

/-! ## Structural hash (`GetHashValue`) -/

/-- `AffineTransform::GetHashValue`: start from `0xCC03DAE4u`, add the output
dimension, xor with the predecessor hash shifted right by 1 and shifted left
by 31, all in `std::uint32_t` wraparound arithmetic. -/
def GetHashValue (prevHash O : Nat) : Nat :=
  let h1 := (0xCC03DAE4 + O) % 4294967296
  let h2 := h1 ^^^ (prevHash >>> 1)
  let h3 := h2 ^^^ ((prevHash <<< 31) % 4294967296)
  h3

/-- The hash of a chain of affine layers stacked on a base layer with hash
`baseHash`; the list holds output dimensions outermost-first. -/
def chainHash (baseHash : Nat) : List Nat → Nat
  | [] => baseHash
  | O :: rest => GetHashValue (chainHash baseHash rest) O

/-- The hash of a chain of loaded layers (dimension plus parameter data
each); the hash is computed from the dimensions alone, as `GetHashValue`
is a `static constexpr` function of the template parameters. -/
def layerChainHash (baseHash : Nat) (ls : List (Nat × LayerData)) : Nat :=
  chainHash baseHash (ls.map Prod.fst)

/-! ## Buffer layout -/

/-- Modelled from the spec: `kCacheLineSize` of `nnue_common.h` (not under
`src/`), the cache-line size in bytes used for buffer rounding. -/
def kCacheLineSize : Nat := 64

/-- Modelled from the spec: `CeilToMultiple` of `nnue_common.h` (not under
`src/`), rounding `n` up to the nearest multiple of `base`. -/
def CeilToMultiple (n base : Nat) : Nat := (n + base - 1) / base * base

/-- `kSelfBufferSize`: this layer's output (`kOutputDimensions` values of
`sizeof(OutputType) = 4` bytes) rounded up to a cache-line multiple. -/
def kSelfBufferSize (O : Nat) : Nat := CeilToMultiple (O * 4) kCacheLineSize

/-- `kBufferSize` of a chain, dimensions outermost-first, on a base layer
with buffer size `baseSize`: each layer adds its own `kSelfBufferSize` to the
predecessor's `kBufferSize`. -/
def chainBufferSize (baseSize : Nat) : List Nat → Nat
  | [] => baseSize
  | O :: rest => chainBufferSize baseSize rest + kSelfBufferSize O

/-- The byte offset of layer `k`'s output region inside the shared buffer
(`k = 0` is the outermost layer).  Layer 0 writes at offset 0 and passes
`buffer + kSelfBufferSize` to its predecessor, so layer `k` writes at the sum
of the self sizes of the layers outside it. -/
def chainOffset (dims : List Nat) (k : Nat) : Nat :=
  ((dims.take k).map kSelfBufferSize).sum

/-! ## Buffer-effect model of `Propagate` -/

/-- The little-endian byte `k` of a stored `std::int32_t`. -/
def byteOfInt32 (v : Int) (k : Nat) : Nat := (v % 4294967296).toNat / 256 ^ k % 256

/-- Store one 32-bit output value at byte address `addr` of the buffer. -/
def writeWord (buf : Nat → Nat) (addr : Nat) (v : Int) : Nat → Nat :=
  fun a => if addr ≤ a ∧ a < addr + 4 then byteOfInt32 v (a - addr) else buf a

/-- Store the output values consecutively from byte address `base`
(`output[i]` at `base + 4 * i`, as `reinterpret_cast<OutputType*>(buffer)`). -/
def writeWords : (Nat → Nat) → Nat → List Int → (Nat → Nat)
  | buf, _, [] => buf
  | buf, base, v :: vs => writeWords (writeWord buf base v) (base + 4) vs

/-- The predecessor layer as the caller of `Propagate` sees it: an output
dimension, a `kBufferSize`, and a propagation function taking the transformed
features, the global buffer, and the base address of the region handed to it,
returning the updated buffer and its output bytes. -/
structure PrevModel where
  outputDims : Nat
  bufferSize : Nat
  propagate : List Nat → (Nat → Nat) → Nat → ((Nat → Nat) × List Nat)

/-- `AffineTransform::Propagate` with its buffer effects: recurse into the
predecessor at `buffer + kSelfBufferSize`, compute this layer's outputs from
the predecessor's output bytes, and write them at the start of this layer's
own region.  The method is `const`, so the layer data is returned unchanged;
the returned address `base` is the `output` pointer. -/
def Propagate (prev : PrevModel) (O d P : Nat) (L : LayerData)
    (features : List Nat) (buf : Nat → Nat) (base : Nat) :
    LayerData × (Nat → Nat) × Nat :=
  let pr := prev.propagate features buf (base + kSelfBufferSize O)
  let out := propagateScalar O d P L.biases L.weights pr.2
  (L, writeWords pr.1 base out, base)

/-! ## Arithmetic helper lemmas -/

theorem wrap32_add_left (a b : Int) : wrap32 (wrap32 a + b) = wrap32 (a + b) := by
  unfold wrap32; omega

theorem wrap32_add_right (a b : Int) : wrap32 (a + wrap32 b) = wrap32 (a + b) := by
  unfold wrap32; omega

theorem wrap32_congr_left {a b : Int} (c : Int) (h : wrap32 a = wrap32 b) :
    wrap32 (a + c) = wrap32 (b + c) := by
  have ha := wrap32_add_left a c
  have hb := wrap32_add_left b c
  rw [← ha, ← hb, h]

theorem wrap32_congr_right {a b : Int} (c : Int) (h : wrap32 a = wrap32 b) :
    wrap32 (c + a) = wrap32 (c + b) := by
  have ha := wrap32_add_right c a
  have hb := wrap32_add_right c b
  rw [← ha, ← hb, h]

theorem wrap32_of_range {x : Int} (h1 : -2147483648 ≤ x) (h2 : x < 2147483648) :
    wrap32 x = x := by
  unfold wrap32; omega

theorem wrap32_range (x : Int) : -2147483648 ≤ wrap32 x ∧ wrap32 x < 2147483648 := by
  unfold wrap32; omega

theorem sat16_of_range {x : Int} (h1 : -32768 ≤ x) (h2 : x ≤ 32767) : sat16 x = x := by
  unfold sat16; omega

theorem wrap16_of_range {x : Int} (h1 : -32768 ≤ x) (h2 : x ≤ 32767) : wrap16 x = x := by
  unfold wrap16; omega

/-! ## List helper lemmas -/

theorem addEpi32_length (xs ys : List Int) :
    (addEpi32 xs ys).length = min xs.length ys.length := by
  simp [addEpi32, List.length_zipWith]

theorem addEpi32_sum : ∀ {xs ys : List Int}, xs.length = ys.length →
    wrap32 (addEpi32 xs ys).sum = wrap32 (xs.sum + ys.sum)
  | [], [], _ => by simp [addEpi32]
  | x :: xs, y :: ys, h => by
      have ih := @addEpi32_sum xs ys (by simpa using h)
      have e : addEpi32 (x :: xs) (y :: ys) = wrap32 (x + y) :: addEpi32 xs ys := rfl
      rw [e, List.sum_cons, wrap32_add_left]
      have h2 : wrap32 (x + y + (addEpi32 xs ys).sum)
          = wrap32 (x + y + (xs.sum + ys.sum)) := wrap32_congr_right _ ih
      rw [h2, List.sum_cons, List.sum_cons]
      ring_nf

theorem maddPairs_length : ∀ ps : List Int, (maddPairs ps).length = ps.length / 2
  | [] => by simp [maddPairs]
  | [p] => by simp [maddPairs]
  | p0 :: p1 :: ps => by
      have ih := maddPairs_length ps
      simp only [maddPairs, List.length_cons]
      omega

theorem satPairs_length : ∀ ps : List Int, (satPairs ps).length = ps.length / 2
  | [] => by simp [satPairs]
  | [p] => by simp [satPairs]
  | p0 :: p1 :: ps => by
      have ih := satPairs_length ps
      simp only [satPairs, List.length_cons]
      omega

theorem quadPairs_length : ∀ ps : List Int, (quadPairs ps).length = ps.length / 4
  | [] => by simp [quadPairs]
  | [p] => by simp [quadPairs]
  | [p, q] => by simp [quadPairs]
  | [p, q, r] => by simp [quadPairs]
  | p0 :: p1 :: p2 :: p3 :: ps => by
      have ih := quadPairs_length ps
      simp only [quadPairs, List.length_cons]
      omega

theorem maddPairs_sum : ∀ {ps : List Int}, 2 ∣ ps.length → (maddPairs ps).sum = ps.sum
  | [], _ => by simp [maddPairs]
  | [p], h => by simp at h
  | p0 :: p1 :: ps, h => by
      have ih := @maddPairs_sum ps (by simp at h; omega)
      simp only [maddPairs, List.sum_cons, ih]
      ring

theorem quadPairs_sum : ∀ {ps : List Int}, 4 ∣ ps.length → (quadPairs ps).sum = ps.sum
  | [], _ => by simp [quadPairs]
  | [p], h => by simp at h
  | [p, q], h => by simp at h; omega
  | [p, q, r], h => by simp at h; omega
  | p0 :: p1 :: p2 :: p3 :: ps, h => by
      have ih := @quadPairs_sum ps (by simp at h; omega)
      simp only [quadPairs, List.sum_cons, ih]
      ring

theorem satPairs_sum_of_bounded : ∀ {ps : List Int}, 2 ∣ ps.length →
    (∀ p ∈ ps, -16384 ≤ p ∧ p ≤ 16383) → (satPairs ps).sum = ps.sum
  | [], _, _ => by simp [satPairs]
  | [p], h, _ => by simp at h
  | p0 :: p1 :: ps, h, hb => by
      have ih := @satPairs_sum_of_bounded ps (by simp at h; omega)
        (fun p hp => hb p (by simp [hp]))
      have h0 := hb p0 (by simp)
      have h1 := hb p1 (by simp)
      have hs : sat16 (p0 + p1) = p0 + p1 := sat16_of_range (by omega) (by omega)
      simp only [satPairs, List.sum_cons, ih, hs]
      ring

theorem prods_take (n : Nat) (a : List Nat) (b : List Int) :
    prods (a.take n) (b.take n) = (prods a b).take n := by
  simp [prods, List.take_zipWith]

theorem prods_drop (n : Nat) (a : List Nat) (b : List Int) :
    prods (a.drop n) (b.drop n) = (prods a b).drop n := by
  simp [prods, List.drop_zipWith]

theorem prodsS_take (n : Nat) (a : List Nat) (b : List Int) :
    prodsS (a.take n) (b.take n) = (prodsS a b).take n := by
  simp [prodsS, List.take_zipWith]

theorem prodsS_drop (n : Nat) (a : List Nat) (b : List Int) :
    prodsS (a.drop n) (b.drop n) = (prodsS a b).drop n := by
  simp [prodsS, List.drop_zipWith]

theorem prods_length (a : List Nat) (b : List Int) :
    (prods a b).length = min a.length b.length := by
  simp [prods, List.length_zipWith]

theorem prodsS_length (a : List Nat) (b : List Int) :
    (prodsS a b).length = min a.length b.length := by
  simp [prodsS, List.length_zipWith]

/-! ## Chunked-sum characterization of the vector kernels -/

/-- The structured sum computed by a vectorized row reduction: the product
stream is cut into `n` chunks of `w` entries and each chunk contributes
`val chunk` (which retains the kernel's saturation/wraparound structure). -/
def chunkSum (w : Nat) (val : List Int → Int) : Nat → List Int → Int
  | 0, _ => 0
  | n + 1, ps => val (ps.take w) + chunkSum w val n (ps.drop w)

theorem chunkSum_sum (w : Nat) (val : List Int → Int) (Q : Int → Prop)
    (hval : ∀ c : List Int, c.length = w → (∀ x ∈ c, Q x) → val c = c.sum) :
    ∀ (n : Nat) (ps : List Int), ps.length = w * n → (∀ x ∈ ps, Q x) →
      chunkSum w val n ps = ps.sum
  | 0, ps, hlen, _ => by
      have : ps = [] := List.eq_nil_of_length_eq_zero (by omega)
      simp [chunkSum, this]
  | n + 1, ps, hlen, hq => by
      rw [Nat.mul_succ] at hlen
      have hw : w ≤ ps.length := by omega
      have h1 : (ps.take w).length = w := by simp; omega
      have h2 : (ps.drop w).length = w * n := by simp; omega
      have ih := chunkSum_sum w val Q hval n (ps.drop w) h2
        (fun x hx => hq x (List.mem_of_mem_drop hx))
      have hv := hval (ps.take w) h1 (fun x hx => hq x (List.mem_of_mem_take hx))
      calc chunkSum w val (n + 1) ps
      _ = val (ps.take w) + chunkSum w val n (ps.drop w) := rfl
      _ = (ps.take w).sum + (ps.drop w).sum := by rw [ih, hv]
      _ = ps.sum := by rw [← List.sum_append, List.take_append_drop]

/-- The central lemma on the chunk loop: for any per-chunk lane map `g` over a
pointwise product map `Pm`, the lane sum of the folded accumulator equals, in
32-bit wraparound arithmetic, the initial lane sum plus the structured chunk
sum of the whole product stream. -/
theorem foldChunks_sum (w L : Nat) (g : List Int → List Int) (val : List Int → Int)
    (Pm : List Nat → List Int → List Int)
    (hPt : ∀ (n : Nat) (a : List Nat) (b : List Int),
      Pm (a.take n) (b.take n) = (Pm a b).take n)
    (hPd : ∀ (n : Nat) (a : List Nat) (b : List Int),
      Pm (a.drop n) (b.drop n) = (Pm a b).drop n)
    (hPl : ∀ (a : List Nat) (b : List Int), (Pm a b).length = min a.length b.length)
    (hgl : ∀ ps : List Int, ps.length = w → (g ps).length = L)
    (hgs : ∀ ps : List Int, ps.length = w → (g ps).sum = val ps) :
    ∀ (n : Nat) (ins : List Nat) (row : List Int) (acc : List Int),
      ins.length = w * n → w * n ≤ row.length → acc.length = L →
      wrap32 (foldChunks w (fun acc a b => addEpi32 acc (g (Pm a b))) n ins row acc).sum
        = wrap32 (acc.sum + chunkSum w val n (Pm ins row))
  | 0, ins, row, acc, hins, hrow, hacc => by simp [foldChunks, chunkSum]
  | n + 1, ins, row, acc, hins, hrow, hacc => by
      rw [Nat.mul_succ] at hins hrow
      have hw : w ≤ ins.length := by omega
      have hlb : (Pm ins row).length = ins.length := by rw [hPl]; omega
      have hcl : (Pm (ins.take w) (row.take w)).length = w := by
        rw [hPt, List.length_take, hlb]; omega
      have hgcl : (g (Pm (ins.take w) (row.take w))).length = L := hgl _ hcl
      have hacc' : (addEpi32 acc (g (Pm (ins.take w) (row.take w)))).length = L := by
        rw [addEpi32_length, hacc, hgcl]; omega
      have hins' : (ins.drop w).length = w * n := by simp; omega
      have hrow' : w * n ≤ (row.drop w).length := by simp; omega
      have ih := foldChunks_sum w L g val Pm hPt hPd hPl hgl hgs n
        (ins.drop w) (row.drop w) (addEpi32 acc (g (Pm (ins.take w) (row.take w))))
        hins' hrow' hacc'
      have step : foldChunks w (fun acc a b => addEpi32 acc (g (Pm a b))) (n + 1) ins row acc
          = foldChunks w (fun acc a b => addEpi32 acc (g (Pm a b))) n
              (ins.drop w) (row.drop w)
              (addEpi32 acc (g (Pm (ins.take w) (row.take w)))) := rfl
      rw [step, ih, hPd]
      have hsum : wrap32 (addEpi32 acc (g (Pm (ins.take w) (row.take w)))).sum
          = wrap32 (acc.sum + (g (Pm (ins.take w) (row.take w))).sum) :=
        addEpi32_sum (by rw [hacc, hgcl])
      rw [wrap32_congr_left _ hsum]
      have hval : (g (Pm (ins.take w) (row.take w))).sum = val ((Pm ins row).take w) := by
        rw [hgs _ hcl, hPt]
      rw [hval]
      have hcs : chunkSum w val (n + 1) (Pm ins row)
          = val ((Pm ins row).take w) + chunkSum w val n ((Pm ins row).drop w) := rfl
      rw [hcs]
      congr 1
      ring

/-- The literal shuffle tree of `m128_hadd` agrees with the flat wrapped lane
sum `haddBias` on 4-lane registers. -/
theorem m128_hadd_eq (s0 s1 s2 s3 bias : Int) :
    m128_hadd [s0, s1, s2, s3] bias = haddBias [s0, s1, s2, s3] bias := by
  simp only [m128_hadd, haddBias, addEpi32, List.zipWith, List.getD, List.get?,
    Option.getD_some, List.sum_cons, List.sum_nil]
  unfold wrap32
  omega

theorem maddubsRow_sum (w : Nat) (h4 : 4 ∣ w) (hw : 0 < w)
    (ins : List Nat) (row : List Int)
    (hdvd : w ∣ ins.length) (hrow : ins.length ≤ row.length) :
    wrap32 (maddubsRow w ins row).sum
      = wrap32 (chunkSum w (fun c => (satPairs c).sum) (ins.length / w) (prods ins row)) := by
  obtain ⟨k, hk⟩ := h4
  have hupd : add_dpbusd_epi32
      = fun acc a b => addEpi32 acc ((fun ps => maddPairs (satPairs ps)) (prods a b)) := rfl
  have hgl : ∀ ps : List Int, ps.length = w → (maddPairs (satPairs ps)).length = w / 4 := by
    intro ps hps
    rw [maddPairs_length, satPairs_length, hps]
    omega
  have hgs : ∀ ps : List Int, ps.length = w → (maddPairs (satPairs ps)).sum = (satPairs ps).sum := by
    intro ps hps
    refine maddPairs_sum ?_
    rw [satPairs_length, hps]
    exact ⟨k, by omega⟩
  have hlen : ins.length = w * (ins.length / w) := (Nat.mul_div_cancel' hdvd).symm
  have h := foldChunks_sum w (w / 4) (fun ps => maddPairs (satPairs ps))
    (fun c => (satPairs c).sum) prods prods_take prods_drop prods_length hgl hgs
    (ins.length / w) ins row (List.replicate (w / 4) 0) hlen (by rw [← hlen]; exact hrow)
    (by simp)
  unfold maddubsRow
  rw [hupd, h]
  simp [List.sum_replicate]

theorem vnniRow_sum (w : Nat) (h4 : 4 ∣ w) (hw : 0 < w)
    (ins : List Nat) (row : List Int)
    (hdvd : w ∣ ins.length) (hrow : ins.length ≤ row.length) :
    wrap32 (vnniRow w ins row).sum = wrap32 (prods ins row).sum := by
  have hupd : add_dpbusd_vnni
      = fun acc a b => addEpi32 acc (quadPairs (prods a b)) := rfl
  have hgl : ∀ ps : List Int, ps.length = w → (quadPairs ps).length = w / 4 := by
    intro ps hps
    rw [quadPairs_length, hps]
  have hgs : ∀ ps : List Int, ps.length = w → (quadPairs ps).sum = ps.sum := by
    intro ps hps
    exact quadPairs_sum (by rw [hps]; exact h4)
  have hlen : ins.length = w * (ins.length / w) := (Nat.mul_div_cancel' hdvd).symm
  have h := foldChunks_sum w (w / 4) quadPairs (fun c => c.sum)
    prods prods_take prods_drop prods_length hgl hgs
    (ins.length / w) ins row (List.replicate (w / 4) 0) hlen (by rw [← hlen]; exact hrow)
    (by simp)
  have hcs : chunkSum w (fun c => c.sum) (ins.length / w) (prods ins row)
      = (prods ins row).sum := by
    refine chunkSum_sum w _ (fun _ => True) (fun c _ _ => rfl) _ _ ?_ (fun _ _ => trivial)
    rw [prods_length, ← hlen]
    omega
  unfold vnniRow
  rw [hupd, h, hcs]
  simp [List.sum_replicate]

theorem maddubsRow_sum_of_bounded (w : Nat) (h4 : 4 ∣ w) (hw : 0 < w)
    (ins : List Nat) (row : List Int)
    (hdvd : w ∣ ins.length) (hrow : ins.length ≤ row.length)
    (hb : ∀ p ∈ prods ins row, -16384 ≤ p ∧ p ≤ 16383) :
    wrap32 (maddubsRow w ins row).sum = wrap32 (prods ins row).sum := by
  obtain ⟨k, hk⟩ := h4
  rw [maddubsRow_sum w ⟨k, hk⟩ hw ins row hdvd hrow]
  have hcs : chunkSum w (fun c => (satPairs c).sum) (ins.length / w) (prods ins row)
      = (prods ins row).sum := by
    have hlen : ins.length = w * (ins.length / w) := (Nat.mul_div_cancel' hdvd).symm
    refine chunkSum_sum w _ (fun p => -16384 ≤ p ∧ p ≤ 16383) ?_ _ _ ?_ hb
    · intro c hc hbc
      refine satPairs_sum_of_bounded ?_ hbc
      rw [hc]
      exact ⟨2 * k, by omega⟩
    · rw [prods_length, ← hlen]
      omega
  rw [hcs]

/-- The scalar inner loop computes, modulo 32-bit wraparound, the bias plus the
flat product sum. -/
theorem scalarDot_eq : ∀ (ws : List Int) (ins : List Nat) (acc : Int),
    -2147483648 ≤ acc → acc < 2147483648 →
    scalarDot ws ins acc = wrap32 (acc + (prods ins ws).sum)
  | [], ins, acc, h1, h2 => by
      have h : scalarDot [] ins acc = acc := by cases ins <;> rfl
      have h' : prods ins ([] : List Int) = [] := by simp [prods]
      rw [h, h', List.sum_nil, add_zero, wrap32_of_range h1 h2]
  | w :: ws, [], acc, h1, h2 => by
      have h : scalarDot (w :: ws) [] acc = acc := rfl
      rw [h]
      have h' : prods ([] : List Nat) (w :: ws) = [] := rfl
      rw [h', List.sum_nil, add_zero, wrap32_of_range h1 h2]
  | w :: ws, i :: ins, acc, h1, h2 => by
      have hr := wrap32_range (acc + w * (i : Int))
      have ih := scalarDot_eq ws ins (wrap32 (acc + w * (i : Int))) hr.1 hr.2
      show scalarDot ws ins (wrap32 (acc + w * (i : Int))) = _
      rw [ih, wrap32_add_left]
      have : prods (i :: ins) (w :: ws) = mulUB i w :: prods ins ws := rfl
      rw [this, List.sum_cons]
      congr 1
      unfold mulUB
      ring

theorem prods_sum_zero : ∀ {ins : List Nat} {row : List Int},
    (∀ x ∈ row, x = 0) → (prods ins row).sum = 0
  | [], _, _ => by simp [prods]
  | _ :: _, [], _ => by simp [prods]
  | i :: ins, r :: row, hz => by
      have h0 : r = 0 := hz r (by simp)
      have ih := @prods_sum_zero ins row (fun x hx => hz x (by simp [hx]))
      have : prods (i :: ins) (r :: row) = mulUB i r :: prods ins row := rfl
      rw [this, List.sum_cons, ih, h0]
      simp [mulUB]

/-- With zero weights beyond position `d`, the padded product sum collapses to
the product sum over the first `d` positions. -/
theorem prods_sum_take (d : Nat) (ins : List Nat) (row : List Int)
    (hz : ∀ x ∈ row.drop d, x = 0) (hd : d ≤ ins.length) (hlen : ins.length ≤ row.length) :
    (prods ins row).sum = (prods (ins.take d) (row.take d)).sum := by
  conv_lhs => rw [← List.take_append_drop d ins, ← List.take_append_drop d row]
  unfold prods
  rw [List.zipWith_append _ _ _ _ _ (by simp; omega)]
  rw [List.sum_append]
  have h0 : (prods (ins.drop d) (row.drop d)).sum = 0 := prods_sum_zero hz
  unfold prods at h0
  rw [h0, add_zero]

/-- Bounds on the unsigned-byte × signed-byte products when inputs stay in
`[0, 127]` and weights in `[-128, 127]`: every product lies well inside the
range where a 16-bit saturating pair sum is exact. -/
theorem prods_bound : ∀ {as : List Nat} {bs : List Int},
    (∀ a ∈ as, a ≤ 127) → (∀ b ∈ bs, -128 ≤ b ∧ b ≤ 127) →
    ∀ p ∈ prods as bs, -16384 ≤ p ∧ p ≤ 16383
  | [], _, _, _ => by simp [prods]
  | _ :: _, [], _, _ => by simp [prods]
  | a :: as, b :: bs, ha, hb => by
      intro p hp
      have hstep : prods (a :: as) (b :: bs) = mulUB a b :: prods as bs := rfl
      rw [hstep, List.mem_cons] at hp
      rcases hp with rfl | hp
      · have ha' : (a : Int) ≤ 127 := by exact_mod_cast ha a (by simp)
        have h0 : (0 : Int) ≤ (a : Int) := Int.natCast_nonneg a
        have hb' := hb b (by simp)
        have hu : (a : Int) * b ≤ (a : Int) * 127 :=
          mul_le_mul_of_nonneg_left hb'.2 h0
        have hl : (a : Int) * (-128) ≤ (a : Int) * b :=
          mul_le_mul_of_nonneg_left hb'.1 h0
        unfold mulUB
        constructor <;> nlinarith
      · exact prods_bound (fun x hx => ha x (by simp [hx]))
          (fun x hx => hb x (by simp [hx])) p hp

/-- `zipWith` truncates at the shorter list, so the product stream only ever
sees the first `ins.length` weights of a (possibly longer) flat row suffix. -/
theorem prods_take_right : ∀ (ins : List Nat) (row : List Int),
    prods ins row = prods ins (row.take ins.length)
  | [], row => by simp [prods]
  | i :: ins, [] => by simp [prods]
  | i :: ins, r :: row => by
      have ih := prods_take_right ins row
      simp only [prods, List.length_cons, List.take_succ_cons, List.zipWith_cons_cons]
      exact congrArg _ ih

/-- With zero weights at the padded positions `[d, ins.length)`, the kernels'
product sum over the whole (padded) input equals the product sum over the
first `d` (real) positions. -/
theorem padded_sum_eq (d : Nat) (input : List Nat) (row : List Int)
    (hd : d ≤ input.length) (hlen : input.length ≤ row.length)
    (hpad : ∀ x ∈ (row.drop d).take (input.length - d), x = 0) :
    (prods input row).sum = (prods (input.take d) (row.take d)).sum := by
  rw [prods_take_right input row]
  have hz : ∀ x ∈ (row.take input.length).drop d, x = 0 := by
    intro x hx
    rw [List.drop_take] at hx
    exact hpad x hx
  rw [prods_sum_take d input (row.take input.length) hz hd (by simp; omega)]
  rw [List.take_take]
  have : min d input.length = d := by omega
  rw [this]

/-- When every input byte is at most 127, the signed reinterpretation of the
NEON multiplies agrees with the unsigned product stream. -/
theorem prodsS_eq_prods : ∀ {as : List Nat} {bs : List Int},
    (∀ a ∈ as, a ≤ 127) → prodsS as bs = prods as bs
  | [], bs, _ => by simp [prodsS, prods]
  | a :: as, [], _ => by simp [prodsS, prods]
  | a :: as, b :: bs, ha => by
      have ih := @prodsS_eq_prods as bs (fun x hx => ha x (by simp [hx]))
      have ha' : a < 128 := by have := ha a (by simp); omega
      simp only [prodsS, prods, List.zipWith_cons_cons] at ih ⊢
      rw [ih]
      unfold toInt8 mulUB
      rw [if_pos ha']

/-! ### The NEON kernel -/

/-- The `int16` product register of one NEON chunk, as a function of the
chunk's signed product stream: lane `k` is `wrap16 (p_k + p_(k+8))`. -/
def neonLanes (ps : List Int) : List Int :=
  List.zipWith (fun p q => wrap16 (p + q)) (ps.take 8) (ps.drop 8)

theorem neonMull_eq (a : List Nat) (b : List Int) :
    neonMull a b = neonLanes (prodsS a b) := by
  unfold neonMull neonLanes
  rw [prodsS_take, prodsS_drop]

theorem zipWith_wrap16_sum : ∀ {xs ys : List Int}, xs.length = ys.length →
    (∀ x ∈ xs, -16384 ≤ x ∧ x ≤ 16383) → (∀ y ∈ ys, -16384 ≤ y ∧ y ≤ 16383) →
    (List.zipWith (fun p q => wrap16 (p + q)) xs ys).sum = xs.sum + ys.sum
  | [], [], _, _, _ => by simp
  | x :: xs, y :: ys, h, hx, hy => by
      have ih := @zipWith_wrap16_sum xs ys (by simpa using h)
        (fun a ha => hx a (by simp [ha])) (fun a ha => hy a (by simp [ha]))
      have hx0 := hx x (by simp)
      have hy0 := hy y (by simp)
      have hw : wrap16 (x + y) = x + y := wrap16_of_range (by omega) (by omega)
      simp only [List.zipWith_cons_cons, List.sum_cons, ih, hw]
      ring

theorem neonRow_sum (ins : List Nat) (row : List Int) (bias : Int)
    (hdvd : 16 ∣ ins.length) (hrow : ins.length ≤ row.length)
    (hb : ∀ p ∈ prodsS ins row, -16384 ≤ p ∧ p ≤ 16383) :
    neonRow ins row bias = wrap32 (bias + (prodsS ins row).sum) := by
  have hupd : neonStep = fun acc a b => addEpi32 acc (maddPairs (neonLanes (prodsS a b))) := by
    funext acc a b
    rw [neonStep, neonMull_eq]
  have hgl : ∀ ps : List Int, ps.length = 16 → (maddPairs (neonLanes ps)).length = 4 := by
    intro ps hps
    rw [maddPairs_length]
    unfold neonLanes
    rw [List.length_zipWith, List.length_take, List.length_drop, hps]
    omega
  have hgs : ∀ ps : List Int, ps.length = 16 →
      (maddPairs (neonLanes ps)).sum = (neonLanes ps).sum := by
    intro ps hps
    refine maddPairs_sum ?_
    unfold neonLanes
    rw [List.length_zipWith, List.length_take, List.length_drop, hps]
    omega
  have hlen : ins.length = 16 * (ins.length / 16) := (Nat.mul_div_cancel' hdvd).symm
  have h := foldChunks_sum 16 4 (fun ps => maddPairs (neonLanes ps))
    (fun c => (neonLanes c).sum) prodsS prodsS_take prodsS_drop prodsS_length hgl hgs
    (ins.length / 16) ins row (bias :: [0, 0, 0]) hlen (by rw [← hlen]; exact hrow) rfl
  have hcs : chunkSum 16 (fun c => (neonLanes c).sum) (ins.length / 16) (prodsS ins row)
      = (prodsS ins row).sum := by
    refine chunkSum_sum 16 _ (fun p => -16384 ≤ p ∧ p ≤ 16383) ?_ _ _ ?_ hb
    · intro c hc hbc
      unfold neonLanes
      rw [zipWith_wrap16_sum (by rw [List.length_take, List.length_drop, hc]; omega)
        (fun x hx => hbc x (List.mem_of_mem_take hx))
        (fun x hx => hbc x (List.mem_of_mem_drop hx))]
      rw [← List.sum_append, List.take_append_drop]
    · rw [prodsS_length, ← hlen]
      omega
  unfold neonRow
  rw [hupd, h, hcs]
  norm_num

/-! ### The SSE2/MMX kernel -/

/-- The `int32` lane contribution of one SSE2/MMX chunk, as a function of the
chunk's product stream: the pairwise-summed low half concatenated with the
pairwise-summed high half (`sum_lo` and `sum_hi` lanes). -/
def sse2Lanes (w : Nat) (ps : List Int) : List Int :=
  maddPairs (ps.take (w / 2)) ++ maddPairs (ps.drop (w / 2))

theorem sse2Step_cat (w : Nat) (lo hi : List Int) (a : List Nat) (b : List Int)
    (hlo : lo.length = w / 4) (ha : a.length = w) (hb : b.length = w) :
    (sse2Step w lo hi a b).1 ++ (sse2Step w lo hi a b).2
      = addEpi32 (lo ++ hi) (sse2Lanes w (prods a b)) := by
  unfold sse2Step sse2Lanes addEpi32
  rw [prods_take, prods_drop]
  refine (List.zipWith_append _ _ _ _ _ ?_).symm
  rw [hlo, maddPairs_length, List.length_take, prods_length, ha, hb]
  omega

theorem sse2Fold_cat (w : Nat) (h4 : 4 ∣ w) :
    ∀ (n : Nat) (ins : List Nat) (row : List Int) (lo hi : List Int),
      lo.length = w / 4 → hi.length = w / 4 → ins.length = w * n → w * n ≤ row.length →
      (sse2Fold w n ins row (lo, hi)).1.length = w / 4 ∧
      (sse2Fold w n ins row (lo, hi)).2.length = w / 4 ∧
      (sse2Fold w n ins row (lo, hi)).1 ++ (sse2Fold w n ins row (lo, hi)).2
        = foldChunks w (fun acc a b => addEpi32 acc (sse2Lanes w (prods a b))) n ins row (lo ++ hi)
  | 0, ins, row, lo, hi, hlo, hhi, hins, hrow => ⟨hlo, hhi, rfl⟩
  | n + 1, ins, row, lo, hi, hlo, hhi, hins, hrow => by
      rw [Nat.mul_succ] at hins hrow
      have hw : w ≤ ins.length := by omega
      have htl : (ins.take w).length = w := by simp; omega
      have hrl : (row.take w).length = w := by simp; omega
      have hl1 : (sse2Step w lo hi (ins.take w) (row.take w)).1.length = w / 4 := by
        unfold sse2Step
        rw [addEpi32_length, hlo]
        simp only [maddPairs_length, prods_length, List.length_take]
        omega
      have hl2 : (sse2Step w lo hi (ins.take w) (row.take w)).2.length = w / 4 := by
        unfold sse2Step
        rw [addEpi32_length, hhi]
        simp only [maddPairs_length, prods_length, List.length_drop]
        omega
      have hins' : (ins.drop w).length = w * n := by simp; omega
      have hrow' : w * n ≤ (row.drop w).length := by simp; omega
      have ih := sse2Fold_cat w h4 n (ins.drop w) (row.drop w)
        (sse2Step w lo hi (ins.take w) (row.take w)).1
        (sse2Step w lo hi (ins.take w) (row.take w)).2 hl1 hl2 hins' hrow'
      have hstep1 : sse2Fold w (n + 1) ins row (lo, hi)
          = sse2Fold w n (ins.drop w) (row.drop w)
              (sse2Step w lo hi (ins.take w) (row.take w)) := rfl
      refine ⟨by rw [hstep1]; exact ih.1, by rw [hstep1]; exact ih.2.1, ?_⟩
      rw [hstep1]
      have hih := ih.2.2
      rw [hih]
      rw [sse2Step_cat w lo hi (ins.take w) (row.take w) hlo htl hrl]
      rfl

theorem sse2Row_sum (w : Nat) (h4 : 4 ∣ w) (hw : 0 < w)
    (ins : List Nat) (row : List Int) (bias : Int)
    (hdvd : w ∣ ins.length) (hrow : ins.length ≤ row.length) :
    sse2Row w ins row bias = wrap32 (bias + (prods ins row).sum) := by
  have hw4 : 4 ≤ w := Nat.le_of_dvd hw h4
  have hlen : ins.length = w * (ins.length / w) := (Nat.mul_div_cancel' hdvd).symm
  have hlo : (bias :: List.replicate (w / 4 - 1) 0 : List Int).length = w / 4 := by
    simp
    omega
  have hhi : (List.replicate (w / 4) 0 : List Int).length = w / 4 := by simp
  have hcat := sse2Fold_cat w h4 (ins.length / w) ins row _ _ hlo hhi hlen
    (by rw [← hlen]; exact hrow)
  have hgl : ∀ ps : List Int, ps.length = w → (sse2Lanes w ps).length = w / 2 := by
    intro ps hps
    unfold sse2Lanes
    rw [List.length_append, maddPairs_length, maddPairs_length,
      List.length_take, List.length_drop, hps]
    omega
  have hgs : ∀ ps : List Int, ps.length = w → (sse2Lanes w ps).sum = ps.sum := by
    intro ps hps
    unfold sse2Lanes
    rw [List.sum_append]
    rw [maddPairs_sum (by rw [List.length_take, hps]; omega)]
    rw [maddPairs_sum (by rw [List.length_drop, hps]; omega)]
    rw [← List.sum_append, List.take_append_drop]
  have h := foldChunks_sum w (w / 2) (sse2Lanes w) (fun c => c.sum)
    prods prods_take prods_drop prods_length hgl hgs
    (ins.length / w) ins row ((bias :: List.replicate (w / 4 - 1) 0) ++ List.replicate (w / 4) 0)
    hlen (by rw [← hlen]; exact hrow) (by simp; omega)
  have hcs : chunkSum w (fun c => c.sum) (ins.length / w) (prods ins row)
      = (prods ins row).sum := by
    refine chunkSum_sum w _ (fun _ => True) (fun c _ _ => rfl) _ _ ?_ (fun _ _ => trivial)
    rw [prods_length, ← hlen]
    omega
  unfold sse2Row
  have hfin : wrap32 (addEpi32 (sse2Fold w (ins.length / w) ins row
        (bias :: List.replicate (w / 4 - 1) 0, List.replicate (w / 4) 0)).1
      (sse2Fold w (ins.length / w) ins row
        (bias :: List.replicate (w / 4 - 1) 0, List.replicate (w / 4) 0)).2).sum
      = wrap32 ((sse2Fold w (ins.length / w) ins row
        (bias :: List.replicate (w / 4 - 1) 0, List.replicate (w / 4) 0)).1
      ++ (sse2Fold w (ins.length / w) ins row
        (bias :: List.replicate (w / 4 - 1) 0, List.replicate (w / 4) 0)).2).sum := by
    rw [List.sum_append]
    exact addEpi32_sum (by rw [hcat.1, hcat.2.1])
  rw [hfin, hcat.2.2, h, hcs]
  have hbsum : ((bias :: List.replicate (w / 4 - 1) 0 : List Int) ++ List.replicate (w / 4) 0).sum
      = bias := by
    simp
  rw [hbsum]

/-! ### Row-level equivalence of each vector kernel with the scalar loop -/

theorem scalar_row_eq (d : Nat) (input : List Nat) (row : List Int) (bias : Int)
    (hd : d ≤ input.length) (hlen : input.length ≤ row.length)
    (hpad : ∀ x ∈ (row.drop d).take (input.length - d), x = 0)
    (hb1 : -2147483648 ≤ bias) (hb2 : bias < 2147483648) :
    scalarDot (row.take d) (input.take d) bias = wrap32 (bias + (prods input row).sum) := by
  rw [scalarDot_eq _ _ _ hb1 hb2]
  rw [padded_sum_eq d input row hd hlen hpad]

theorem maddubs_row_vs_scalar (w d : Nat) (h4 : 4 ∣ w) (hw : 0 < w)
    (input : List Nat) (row : List Int) (bias : Int)
    (hdvd : w ∣ input.length) (hrow : input.length ≤ row.length) (hd : d ≤ input.length)
    (hin : ∀ a ∈ input, a ≤ 127) (hrow8 : ∀ x ∈ row, -128 ≤ x ∧ x ≤ 127)
    (hpad : ∀ x ∈ (row.drop d).take (input.length - d), x = 0)
    (hb1 : -2147483648 ≤ bias) (hb2 : bias < 2147483648) :
    haddBias (maddubsRow w input row) bias = scalarDot (row.take d) (input.take d) bias := by
  unfold haddBias
  rw [wrap32_congr_left bias
    (maddubsRow_sum_of_bounded w h4 hw input row hdvd hrow (prods_bound hin hrow8))]
  rw [scalar_row_eq d input row bias hd hrow hpad hb1 hb2]
  congr 1
  ring

theorem vnni_row_vs_scalar (w d : Nat) (h4 : 4 ∣ w) (hw : 0 < w)
    (input : List Nat) (row : List Int) (bias : Int)
    (hdvd : w ∣ input.length) (hrow : input.length ≤ row.length) (hd : d ≤ input.length)
    (hpad : ∀ x ∈ (row.drop d).take (input.length - d), x = 0)
    (hb1 : -2147483648 ≤ bias) (hb2 : bias < 2147483648) :
    haddBias (vnniRow w input row) bias = scalarDot (row.take d) (input.take d) bias := by
  unfold haddBias
  rw [wrap32_congr_left bias (vnniRow_sum w h4 hw input row hdvd hrow)]
  rw [scalar_row_eq d input row bias hd hrow hpad hb1 hb2]
  congr 1
  ring

theorem sse2_row_vs_scalar (w d : Nat) (h4 : 4 ∣ w) (hw : 0 < w)
    (input : List Nat) (row : List Int) (bias : Int)
    (hdvd : w ∣ input.length) (hrow : input.length ≤ row.length) (hd : d ≤ input.length)
    (hpad : ∀ x ∈ (row.drop d).take (input.length - d), x = 0)
    (hb1 : -2147483648 ≤ bias) (hb2 : bias < 2147483648) :
    sse2Row w input row bias = scalarDot (row.take d) (input.take d) bias := by
  rw [sse2Row_sum w h4 hw input row bias hdvd hrow]
  rw [scalar_row_eq d input row bias hd hrow hpad hb1 hb2]

theorem neon_row_vs_scalar (d : Nat)
    (input : List Nat) (row : List Int) (bias : Int)
    (hdvd : 16 ∣ input.length) (hrow : input.length ≤ row.length) (hd : d ≤ input.length)
    (hin : ∀ a ∈ input, a ≤ 127) (hrow8 : ∀ x ∈ row, -128 ≤ x ∧ x ≤ 127)
    (hpad : ∀ x ∈ (row.drop d).take (input.length - d), x = 0)
    (hb1 : -2147483648 ≤ bias) (hb2 : bias < 2147483648) :
    neonRow input row bias = scalarDot (row.take d) (input.take d) bias := by
  have hbp : ∀ p ∈ prodsS input row, -16384 ≤ p ∧ p ≤ 16383 := by
    rw [prodsS_eq_prods hin]
    exact prods_bound hin hrow8
  rw [neonRow_sum input row bias hdvd hrow hbp]
  rw [prodsS_eq_prods hin]
  rw [scalar_row_eq d input row bias hd hrow hpad hb1 hb2]

/-! ### Layer-level equivalence -/

theorem propagateSimd_vs_scalar (rowFn : List Nat → List Int → List Int) (O d P : Nat)
    (biases weights : List Int) (input : List Nat)
    (hO : O % 4 = 0 ∨ O = 1)
    (hrowEq : ∀ i, i < O →
      haddBias (rowFn input (weights.drop (i * P))) (biases.getD i 0)
        = scalarDot ((weights.drop (i * P)).take d) (input.take d) (biases.getD i 0)) :
    propagateSimd rowFn O P biases weights input
      = some (propagateScalar O d P biases weights input) := by
  unfold propagateSimd propagateScalar
  rcases hO with h | h
  · rw [if_pos h]
    exact congrArg some (List.map_congr_left (fun i hi => hrowEq i (List.mem_range.mp hi)))
  · subst h
    rw [if_neg (by norm_num), if_pos rfl]
    have h0 := hrowEq 0 (by norm_num)
    rw [Nat.zero_mul] at h0
    have hr : List.range 1 = [0] := rfl
    rw [hr, List.map_cons, List.map_nil, Nat.zero_mul, h0]

/-- The facts about row `i` of a fully loaded layer with int8-ranged weights
and zero padding entries. -/
theorem row_facts (O P d i : Nat) (weights : List Int)
    (hwlen : weights.length = O * P) (hi : i < O) (hdP : d ≤ P)
    (hw8 : ∀ x ∈ weights, -128 ≤ x ∧ x ≤ 127)
    (hpad : ∀ j, j < O → ∀ x ∈ (weights.drop (j * P + d)).take (P - d), x = 0) :
    P ≤ (weights.drop (i * P)).length ∧
    (∀ x ∈ weights.drop (i * P), -128 ≤ x ∧ x ≤ 127) ∧
    (∀ x ∈ ((weights.drop (i * P)).drop d).take (P - d), x = 0) := by
  have hle : i * P + P ≤ O * P := by
    have h1 : i + 1 ≤ O := hi
    calc i * P + P = (i + 1) * P := by ring
    _ ≤ O * P := Nat.mul_le_mul_right P h1
  refine ⟨by rw [List.length_drop, hwlen]; omega,
    fun x hx => hw8 x (List.mem_of_mem_drop hx), ?_⟩
  rw [List.drop_drop]
  exact hpad i hi

theorem bias_facts (O i : Nat) (biases : List Int) (hblen : biases.length = O) (hi : i < O)
    (hbias : ∀ b ∈ biases, -2147483648 ≤ b ∧ b < 2147483648) :
    -2147483648 ≤ biases.getD i 0 ∧ biases.getD i 0 < 2147483648 := by
  have h : i < biases.length := by omega
  rw [List.getD_eq_getElem _ _ h]
  exact hbias _ (List.getElem_mem h)

/-! ## Claim C1 -/

set_option maxRecDepth 10000 in
/-- **C1** (counterexample): the claim that every vectorized kernel returns
output bit-identical to the scalar fallback for *every* input vector is false:
with `output_dimensions = 1`, `input_dimensions = padded_input_dimensions = 32`
(exact-width), weights `127, 127, 0, …` and input bytes `255, 255, 0, …`, the
SSSE3 kernel's `_mm_maddubs_epi16` saturates the pair sum `2 × 255 × 127 =
64770` to `32767`, while the scalar loop computes `64770`. -/
theorem c1_counterexample :
    ¬ (propagateSSSE3 1 32 [0] ([127, 127] ++ List.replicate 30 0)
        ([255, 255] ++ List.replicate 30 0)
      = some (propagateScalar 1 32 32 [0] ([127, 127] ++ List.replicate 30 0)
        ([255, 255] ++ List.replicate 30 0))) := by decide

/-- **C1** (amended): for every fully loaded layer (int8 weights, int32
biases) whose weight entries at padded positions `j ≥ input_dimensions` are
zero, and every input vector whose bytes lie in `[0, 127]` (the range the
upstream activation layer guarantees), every compiled-in vectorized
`Propagate` kernel — SSSE3, AVX2, AVX512 (both chunk widths), with or without
VNNI, SSE2, MMX, NEON — returns output bit-identical, value for value, to the
portable scalar fallback kernel, for every `output_dimensions` that is 1 or a
multiple of 4 (hence all of {1, 4, 8, 32}) and every
`input_dimensions ≤ padded_input_dimensions`. -/
theorem c1_kernels_match_scalar (O d P : Nat)
    (biases weights : List Int) (input : List Nat)
    (hO : O % 4 = 0 ∨ O = 1) (hP : 32 ∣ P) (hdP : d ≤ P)
    (hinlen : input.length = P) (hwlen : weights.length = O * P)
    (hblen : biases.length = O)
    (hin : ∀ a ∈ input, a ≤ 127)
    (hw8 : ∀ x ∈ weights, -128 ≤ x ∧ x ≤ 127)
    (hbias : ∀ b ∈ biases, -2147483648 ≤ b ∧ b < 2147483648)
    (hpad : ∀ j, j < O → ∀ x ∈ (weights.drop (j * P + d)).take (P - d), x = 0) :
    propagateSSSE3 O P biases weights input
      = some (propagateScalar O d P biases weights input) ∧
    propagateAVX2 O P biases weights input
      = some (propagateScalar O d P biases weights input) ∧
    propagateAVX2vnni O P biases weights input
      = some (propagateScalar O d P biases weights input) ∧
    propagateAVX512 O P biases weights input
      = some (propagateScalar O d P biases weights input) ∧
    propagateAVX512vnni O P biases weights input
      = some (propagateScalar O d P biases weights input) ∧
    propagateSSE2 O P biases weights input = propagateScalar O d P biases weights input ∧
    propagateMMX O P biases weights input = propagateScalar O d P biases weights input ∧
    propagateNEON O P biases weights input = propagateScalar O d P biases weights input := by
  have h16 : (16 : Nat) ∣ input.length := by rw [hinlen]; exact dvd_trans ⟨2, rfl⟩ hP
  have h32 : (32 : Nat) ∣ input.length := by rw [hinlen]; exact hP
  have h8 : (8 : Nat) ∣ input.length := by rw [hinlen]; exact dvd_trans ⟨4, rfl⟩ hP
  have hdin : d ≤ input.length := by rw [hinlen]; exact hdP
  have hrows := fun i hi => row_facts O P d i weights hwlen hi hdP hw8 hpad
  have hbi := fun i hi => bias_facts O i biases hblen hi hbias
  have hpad' : ∀ i, i < O →
      ∀ x ∈ ((weights.drop (i * P)).drop d).take (input.length - d), x = 0 := by
    intro i hi x hx
    rw [hinlen] at hx
    exact (hrows i hi).2.2 x hx
  have hrowlen : ∀ i, i < O → input.length ≤ (weights.drop (i * P)).length := by
    intro i hi
    rw [hinlen]
    exact (hrows i hi).1
  have hmdd : ∀ (w : Nat), 4 ∣ w → 0 < w → w ∣ input.length → ∀ i, i < O →
      haddBias (maddubsRow w input (weights.drop (i * P))) (biases.getD i 0)
        = scalarDot ((weights.drop (i * P)).take d) (input.take d) (biases.getD i 0) := by
    intro w h4 hw hdvd i hi
    exact maddubs_row_vs_scalar w d h4 hw input _ _ hdvd (hrowlen i hi) hdin hin
      ((hrows i hi).2.1) (hpad' i hi) (hbi i hi).1 (hbi i hi).2
  have hvn : ∀ (w : Nat), 4 ∣ w → 0 < w → w ∣ input.length → ∀ i, i < O →
      haddBias (vnniRow w input (weights.drop (i * P))) (biases.getD i 0)
        = scalarDot ((weights.drop (i * P)).take d) (input.take d) (biases.getD i 0) := by
    intro w h4 hw hdvd i hi
    exact vnni_row_vs_scalar w d h4 hw input _ _ hdvd (hrowlen i hi) hdin
      (hpad' i hi) (hbi i hi).1 (hbi i hi).2
  refine ⟨?_, ?_, ?_, ?_, ?_, ?_, ?_, ?_⟩
  · exact propagateSimd_vs_scalar _ O d P _ _ _ hO
      (fun i hi => hmdd 16 (by norm_num) (by norm_num) h16 i hi)
  · exact propagateSimd_vs_scalar _ O d P _ _ _ hO
      (fun i hi => hmdd 32 (by norm_num) (by norm_num) h32 i hi)
  · exact propagateSimd_vs_scalar _ O d P _ _ _ hO
      (fun i hi => hvn 32 (by norm_num) (by norm_num) h32 i hi)
  · unfold propagateAVX512
    by_cases hc : P % 64 = 0
    · rw [if_pos hc]
      have h64 : (64 : Nat) ∣ input.length := by
        rw [hinlen]
        exact Nat.dvd_of_mod_eq_zero hc
      exact propagateSimd_vs_scalar _ O d P _ _ _ hO
        (fun i hi => hmdd 64 (by norm_num) (by norm_num) h64 i hi)
    · rw [if_neg hc]
      exact propagateSimd_vs_scalar _ O d P _ _ _ hO
        (fun i hi => hmdd 32 (by norm_num) (by norm_num) h32 i hi)
  · unfold propagateAVX512vnni
    by_cases hc : P % 64 = 0
    · rw [if_pos hc]
      have h64 : (64 : Nat) ∣ input.length := by
        rw [hinlen]
        exact Nat.dvd_of_mod_eq_zero hc
      exact propagateSimd_vs_scalar _ O d P _ _ _ hO
        (fun i hi => hvn 64 (by norm_num) (by norm_num) h64 i hi)
    · rw [if_neg hc]
      exact propagateSimd_vs_scalar _ O d P _ _ _ hO
        (fun i hi => hvn 32 (by norm_num) (by norm_num) h32 i hi)
  · unfold propagateSSE2 propagateScalar
    refine List.map_congr_left (fun i hi => ?_)
    have hi' := List.mem_range.mp hi
    exact sse2_row_vs_scalar 16 d (by norm_num) (by norm_num) input _ _ h16
      (hrowlen i hi') hdin (hpad' i hi') (hbi i hi').1 (hbi i hi').2
  · unfold propagateMMX propagateScalar
    refine List.map_congr_left (fun i hi => ?_)
    have hi' := List.mem_range.mp hi
    exact sse2_row_vs_scalar 8 d (by norm_num) (by norm_num) input _ _ h8
      (hrowlen i hi') hdin (hpad' i hi') (hbi i hi').1 (hbi i hi').2
  · unfold propagateNEON propagateScalar
    refine List.map_congr_left (fun i hi => ?_)
    have hi' := List.mem_range.mp hi
    exact neon_row_vs_scalar d input _ _ h16
      (hrowlen i hi') hdin hin ((hrows i hi').2.1) (hpad' i hi') (hbi i hi').1 (hbi i hi').2

/-- Weight array of the specification's concrete test scenario (§8):
eight 1-weights then zero padding to the padded width 32. -/
def scenarioWeights : List Int := [1, 1, 1, 1, 1, 1, 1, 1] ++ List.replicate 24 0

/-- Input of the specification's concrete test scenario: bytes 1..8 then zero
padding. -/
def scenarioInput : List Nat := [1, 2, 3, 4, 5, 6, 7, 8] ++ List.replicate 24 0

set_option maxRecDepth 40000 in
/-- Witness for the amended C1 theorem on the specification's concrete
scenario (`output_dimensions = 1`, `input_dimensions = 8`, bias 10, expected
output 46 on every kernel). -/
theorem c1_kernels_match_scalar_witness :
    propagateSSSE3 1 32 [10] scenarioWeights scenarioInput
      = some (propagateScalar 1 8 32 [10] scenarioWeights scenarioInput) ∧
    propagateAVX2 1 32 [10] scenarioWeights scenarioInput
      = some (propagateScalar 1 8 32 [10] scenarioWeights scenarioInput) ∧
    propagateAVX2vnni 1 32 [10] scenarioWeights scenarioInput
      = some (propagateScalar 1 8 32 [10] scenarioWeights scenarioInput) ∧
    propagateAVX512 1 32 [10] scenarioWeights scenarioInput
      = some (propagateScalar 1 8 32 [10] scenarioWeights scenarioInput) ∧
    propagateAVX512vnni 1 32 [10] scenarioWeights scenarioInput
      = some (propagateScalar 1 8 32 [10] scenarioWeights scenarioInput) ∧
    propagateSSE2 1 32 [10] scenarioWeights scenarioInput
      = propagateScalar 1 8 32 [10] scenarioWeights scenarioInput ∧
    propagateMMX 1 32 [10] scenarioWeights scenarioInput
      = propagateScalar 1 8 32 [10] scenarioWeights scenarioInput ∧
    propagateNEON 1 32 [10] scenarioWeights scenarioInput
      = propagateScalar 1 8 32 [10] scenarioWeights scenarioInput :=
  c1_kernels_match_scalar 1 8 32 [10] scenarioWeights scenarioInput
    (Or.inr rfl) (by decide) (by decide) (by decide) (by decide) (by decide)
    (by decide) (by decide) (by decide)
    (fun j hj => by rw [Nat.lt_one_iff.mp hj]; decide)

/-! ## Claim C2 -/

/-- The output value exactly as claim C2 states it: for each output slot,
`bias[i] + Σ_j weight[i][j] * input[j]` with `j` ranging over the whole
`[0, padded_input_dimensions)` and the accumulation carried out in signed
32-bit arithmetic. -/
def specAffineOutput (O P : Nat) (biases weights : List Int) (input : List Nat) : List Int :=
  (List.range O).map fun i =>
    scalarDot ((weights.drop (i * P)).take P) (input.take P) (biases.getD i 0)

set_option maxRecDepth 40000 in
/-- **C2** (counterexample): the compiled scalar fallback sums only
`j < kInputDimensions`, not `j < kPaddedInputDimensions`.  With
`input_dimensions = 1`, `padded_input_dimensions = 32`, a nonzero weight at
padded position 1 and a nonzero input byte there, the claimed formula gives 1
while `Propagate` writes 0. -/
theorem c2_counterexample :
    ¬ (propagateScalar 1 1 32 [0] ([0, 1] ++ List.replicate 30 0)
        ([0, 1] ++ List.replicate 30 0)
      = specAffineOutput 1 32 [0] ([0, 1] ++ List.replicate 30 0)
        ([0, 1] ++ List.replicate 30 0)) := by decide

/-- **C2** (amended): for every fully loaded layer and every input byte
sequence, the scalar `Propagate` writes to output slot `i` the value
`bias[i] + Σ_j weight[i][j] * input[j]` with `j` ranging over
`[0, input_dimensions)` (the real, unpadded dimension), weights signed 8-bit,
inputs unsigned 8-bit, and the accumulation carried out in signed 32-bit
(wraparound) arithmetic. -/
theorem c2_scalar_output_value (O d P : Nat) (biases weights : List Int)
    (input : List Nat) (i : Nat) (hi : i < O) (hblen : biases.length = O)
    (hbias : ∀ b ∈ biases, -2147483648 ≤ b ∧ b < 2147483648) :
    (propagateScalar O d P biases weights input).getD i 0
      = wrap32 (biases.getD i 0
          + (prods (input.take d) ((weights.drop (i * P)).take d)).sum) := by
  have hb := bias_facts O i biases hblen hi hbias
  unfold propagateScalar
  have hlen : i < ((List.range O).map fun i =>
      scalarDot ((weights.drop (i * P)).take d) (input.take d) (biases.getD i 0)).length := by
    simp
    omega
  rw [List.getD_eq_getElem _ _ hlen]
  simp only [List.getElem_map, List.getElem_range]
  exact scalarDot_eq _ _ _ hb.1 hb.2

/-- Witness for the amended C2 theorem, on the specification's concrete
scenario: slot 0 receives `10 + (1 + 2 + … + 8) = 46`. -/
theorem c2_scalar_output_value_witness :
    (propagateScalar 1 8 32 [10] scenarioWeights scenarioInput).getD 0 0
      = wrap32 ((10 : Int)
          + (prods (scenarioInput.take 8) ((scenarioWeights.drop (0 * 32)).take 8)).sum) := by
  have h := c2_scalar_output_value 1 8 32 [10] scenarioWeights scenarioInput 0
    (by decide) (by decide) (by decide)
  simpa using h

/-! ## Claim C6: padding-garbage invariance -/

theorem row_length_ge (O P i : Nat) (weights : List Int)
    (hwlen : weights.length = O * P) (hi : i < O) :
    P ≤ (weights.drop (i * P)).length := by
  have hle : i * P + P ≤ O * P := by
    have h1 : i + 1 ≤ O := hi
    calc i * P + P = (i + 1) * P := by ring
    _ ≤ O * P := Nat.mul_le_mul_right P h1
  rw [List.length_drop, hwlen]
  omega

theorem prods_replicate_zero : ∀ (as : List Nat) (bs : List Int),
    (∀ x ∈ bs.take as.length, x = 0) →
    prods as bs = List.replicate (min as.length bs.length) 0
  | [], bs, _ => by simp [prods]
  | a :: as, [], _ => by simp [prods]
  | a :: as, b :: bs, h => by
      have hb : b = 0 := h b (by simp)
      have ih := prods_replicate_zero as bs (fun x hx => h x (by
        simp only [List.length_cons, List.take_succ_cons, List.mem_cons]
        exact Or.inr hx))
      show mulUB a b :: prods as bs = _
      rw [ih, hb]
      have hm : min (a :: as).length ((0 : Int) :: bs).length = min as.length bs.length + 1 := by
        simp only [List.length_cons]
        omega
      rw [hm, List.replicate_succ]
      simp [mulUB]

theorem prodsS_replicate_zero : ∀ (as : List Nat) (bs : List Int),
    (∀ x ∈ bs.take as.length, x = 0) →
    prodsS as bs = List.replicate (min as.length bs.length) 0
  | [], bs, _ => by simp [prodsS]
  | a :: as, [], _ => by simp [prodsS]
  | a :: as, b :: bs, h => by
      have hb : b = 0 := h b (by simp)
      have ih := prodsS_replicate_zero as bs (fun x hx => h x (by
        simp only [List.length_cons, List.take_succ_cons, List.mem_cons]
        exact Or.inr hx))
      show toInt8 a * b :: prodsS as bs = _
      rw [ih, hb]
      have hm : min (a :: as).length ((0 : Int) :: bs).length = min as.length bs.length + 1 := by
        simp only [List.length_cons]
        omega
      rw [hm, List.replicate_succ]
      simp

/-- Two inputs agreeing on the real positions and differing only where the
weights are zero produce identical product streams (in both the unsigned and
the signed-reinterpreted reading). -/
theorem prods_agree (d : Nat) (c p1 p2 : List Nat) (row : List Int)
    (hc : c.length = d) (hp : p1.length = p2.length) (hd : d ≤ row.length)
    (hz : ∀ x ∈ (row.drop d).take p1.length, x = 0) :
    prods (c ++ p1) row = prods (c ++ p2) row ∧
    prodsS (c ++ p1) row = prodsS (c ++ p2) row := by
  have hct : c.length = (row.take d).length := by
    rw [List.length_take]
    omega
  have hsplit : ∀ ps : List Nat, prods (c ++ ps) row
      = prods c (row.take d) ++ prods ps (row.drop d) := by
    intro ps
    conv_lhs => rw [← List.take_append_drop d row]
    unfold prods
    rw [List.zipWith_append _ _ _ _ _ hct]
  have hsplitS : ∀ ps : List Nat, prodsS (c ++ ps) row
      = prodsS c (row.take d) ++ prodsS ps (row.drop d) := by
    intro ps
    conv_lhs => rw [← List.take_append_drop d row]
    unfold prodsS
    rw [List.zipWith_append _ _ _ _ _ hct]
  have hz2 : ∀ x ∈ (row.drop d).take p2.length, x = 0 := by
    rw [← hp]
    exact hz
  constructor
  · rw [hsplit p1, hsplit p2,
      prods_replicate_zero p1 (row.drop d) hz,
      prods_replicate_zero p2 (row.drop d) hz2, hp]
  · rw [hsplitS p1, hsplitS p2,
      prodsS_replicate_zero p1 (row.drop d) hz,
      prodsS_replicate_zero p2 (row.drop d) hz2, hp]

theorem foldChunks_congr (w : Nat) (g : List Int → List Int)
    (Pm : List Nat → List Int → List Int)
    (hPt : ∀ (n : Nat) (a : List Nat) (b : List Int),
      Pm (a.take n) (b.take n) = (Pm a b).take n)
    (hPd : ∀ (n : Nat) (a : List Nat) (b : List Int),
      Pm (a.drop n) (b.drop n) = (Pm a b).drop n) :
    ∀ (n : Nat) (ins1 ins2 : List Nat) (row : List Int) (acc : List Int),
      Pm ins1 row = Pm ins2 row →
      foldChunks w (fun acc a b => addEpi32 acc (g (Pm a b))) n ins1 row acc
        = foldChunks w (fun acc a b => addEpi32 acc (g (Pm a b))) n ins2 row acc
  | 0, _, _, _, _, _ => rfl
  | n + 1, ins1, ins2, row, acc, hp => by
      have hc : Pm (ins1.take w) (row.take w) = Pm (ins2.take w) (row.take w) := by
        rw [hPt, hPt, hp]
      have hd : Pm (ins1.drop w) (row.drop w) = Pm (ins2.drop w) (row.drop w) := by
        rw [hPd, hPd, hp]
      have ih := foldChunks_congr w g Pm hPt hPd n (ins1.drop w) (ins2.drop w) (row.drop w)
        (addEpi32 acc (g (Pm (ins2.take w) (row.take w)))) hd
      show foldChunks w (fun acc a b => addEpi32 acc (g (Pm a b))) n (ins1.drop w) (row.drop w)
            (addEpi32 acc (g (Pm (ins1.take w) (row.take w))))
          = foldChunks w (fun acc a b => addEpi32 acc (g (Pm a b))) n (ins2.drop w) (row.drop w)
            (addEpi32 acc (g (Pm (ins2.take w) (row.take w))))
      rw [hc]
      exact ih

theorem maddubsRow_congr (w : Nat) (ins1 ins2 : List Nat) (row : List Int)
    (hp : prods ins1 row = prods ins2 row) (hl : ins1.length = ins2.length) :
    maddubsRow w ins1 row = maddubsRow w ins2 row := by
  unfold maddubsRow
  rw [hl]
  have hupd : add_dpbusd_epi32
      = fun acc a b => addEpi32 acc ((fun ps => maddPairs (satPairs ps)) (prods a b)) := rfl
  rw [hupd]
  exact foldChunks_congr w (fun ps => maddPairs (satPairs ps)) prods prods_take prods_drop
    (ins2.length / w) ins1 ins2 row (List.replicate (w / 4) 0) hp

theorem vnniRow_congr (w : Nat) (ins1 ins2 : List Nat) (row : List Int)
    (hp : prods ins1 row = prods ins2 row) (hl : ins1.length = ins2.length) :
    vnniRow w ins1 row = vnniRow w ins2 row := by
  unfold vnniRow
  rw [hl]
  have hupd : add_dpbusd_vnni
      = fun acc a b => addEpi32 acc (quadPairs (prods a b)) := rfl
  rw [hupd]
  exact foldChunks_congr w quadPairs prods prods_take prods_drop
    (ins2.length / w) ins1 ins2 row (List.replicate (w / 4) 0) hp

theorem neonRow_congr (ins1 ins2 : List Nat) (row : List Int) (bias : Int)
    (hp : prodsS ins1 row = prodsS ins2 row) (hl : ins1.length = ins2.length) :
    neonRow ins1 row bias = neonRow ins2 row bias := by
  unfold neonRow
  rw [hl]
  have hupd : neonStep = fun acc a b => addEpi32 acc (maddPairs (neonLanes (prodsS a b))) := by
    funext acc a b
    rw [neonStep, neonMull_eq]
  rw [hupd]
  exact congrArg (fun l : List Int => wrap32 l.sum)
    (foldChunks_congr 16 (fun ps => maddPairs (neonLanes ps)) prodsS prodsS_take prodsS_drop
      (ins2.length / 16) ins1 ins2 row [bias, 0, 0, 0] hp)

theorem sse2Fold_congr (w : Nat) :
    ∀ (n : Nat) (ins1 ins2 : List Nat) (row : List Int) (acc : List Int × List Int),
      prods ins1 row = prods ins2 row →
      sse2Fold w n ins1 row acc = sse2Fold w n ins2 row acc
  | 0, _, _, _, _, _ => rfl
  | n + 1, ins1, ins2, row, acc, hp => by
      have hd : prods (ins1.drop w) (row.drop w) = prods (ins2.drop w) (row.drop w) := by
        rw [prods_drop, prods_drop, hp]
      have hstep : sse2Step w acc.1 acc.2 (ins1.take w) (row.take w)
          = sse2Step w acc.1 acc.2 (ins2.take w) (row.take w) := by
        unfold sse2Step
        simp only [prods_take, prods_drop, hp]
      have ih := sse2Fold_congr w n (ins1.drop w) (ins2.drop w) (row.drop w)
        (sse2Step w acc.1 acc.2 (ins2.take w) (row.take w)) hd
      show sse2Fold w n (ins1.drop w) (row.drop w) (sse2Step w acc.1 acc.2 (ins1.take w) (row.take w))
          = sse2Fold w n (ins2.drop w) (row.drop w) (sse2Step w acc.1 acc.2 (ins2.take w) (row.take w))
      rw [hstep]
      exact ih

theorem sse2Row_congr (w : Nat) (ins1 ins2 : List Nat) (row : List Int) (bias : Int)
    (hp : prods ins1 row = prods ins2 row) (hl : ins1.length = ins2.length) :
    sse2Row w ins1 row bias = sse2Row w ins2 row bias := by
  unfold sse2Row
  rw [hl, sse2Fold_congr w (ins2.length / w) ins1 ins2 row _ hp]

theorem propagateSimd_congr (rowFn : List Nat → List Int → List Int) (O P : Nat)
    (biases weights : List Int) (in1 in2 : List Nat)
    (h : ∀ i, i < O → rowFn in1 (weights.drop (i * P)) = rowFn in2 (weights.drop (i * P))) :
    propagateSimd rowFn O P biases weights in1 = propagateSimd rowFn O P biases weights in2 := by
  unfold propagateSimd
  split_ifs with h4 h1
  · exact congrArg some (List.map_congr_left fun i hi => by
      rw [h i (List.mem_range.mp hi)])
  · have h0 := h 0 (by omega)
    rw [Nat.zero_mul] at h0
    rw [h0]
  · rfl

/-- **C6**: for every fully loaded layer whose weight entries at padded
positions `j ≥ input_dimensions` are zero, and every pair of input byte
sequences that agree on positions `[0, input_dimensions)` (common prefix `c`)
but differ arbitrarily on the padding positions (`p1` versus `p2`), every
compiled-in `Propagate` kernel produces identical output for both sequences:
garbage in the padding region never influences the result. -/
theorem c6_padding_bytes_no_influence (O d P : Nat) (biases weights : List Int)
    (c p1 p2 : List Nat)
    (hc : c.length = d) (hp : p1.length = p2.length) (hP : d + p1.length = P)
    (hwlen : weights.length = O * P)
    (hpad : ∀ j, j < O → ∀ x ∈ (weights.drop (j * P + d)).take (P - d), x = 0) :
    propagateScalar O d P biases weights (c ++ p1)
      = propagateScalar O d P biases weights (c ++ p2) ∧
    propagateSSSE3 O P biases weights (c ++ p1)
      = propagateSSSE3 O P biases weights (c ++ p2) ∧
    propagateAVX2 O P biases weights (c ++ p1)
      = propagateAVX2 O P biases weights (c ++ p2) ∧
    propagateAVX2vnni O P biases weights (c ++ p1)
      = propagateAVX2vnni O P biases weights (c ++ p2) ∧
    propagateAVX512 O P biases weights (c ++ p1)
      = propagateAVX512 O P biases weights (c ++ p2) ∧
    propagateAVX512vnni O P biases weights (c ++ p1)
      = propagateAVX512vnni O P biases weights (c ++ p2) ∧
    propagateSSE2 O P biases weights (c ++ p1)
      = propagateSSE2 O P biases weights (c ++ p2) ∧
    propagateMMX O P biases weights (c ++ p1)
      = propagateMMX O P biases weights (c ++ p2) ∧
    propagateNEON O P biases weights (c ++ p1)
      = propagateNEON O P biases weights (c ++ p2) := by
  have hl : (c ++ p1).length = (c ++ p2).length := by simp [hp]
  have hprod : ∀ i, i < O →
      prods (c ++ p1) (weights.drop (i * P)) = prods (c ++ p2) (weights.drop (i * P)) ∧
      prodsS (c ++ p1) (weights.drop (i * P)) = prodsS (c ++ p2) (weights.drop (i * P)) := by
    intro i hi
    refine prods_agree d c p1 p2 (weights.drop (i * P)) hc hp ?_ ?_
    · have := row_length_ge O P i weights hwlen hi
      omega
    · intro x hx
      rw [List.drop_drop] at hx
      have he : p1.length = P - d := by omega
      rw [he] at hx
      exact hpad i hi x hx
  have htake : (c ++ p1).take d = (c ++ p2).take d := by
    rw [← hc, List.take_left, List.take_left]
  refine ⟨?_, ?_, ?_, ?_, ?_, ?_, ?_, ?_, ?_⟩
  · unfold propagateScalar
    exact List.map_congr_left fun i _ => by rw [htake]
  · exact propagateSimd_congr _ O P biases weights _ _
      (fun i hi => maddubsRow_congr 16 _ _ _ (hprod i hi).1 hl)
  · exact propagateSimd_congr _ O P biases weights _ _
      (fun i hi => maddubsRow_congr 32 _ _ _ (hprod i hi).1 hl)
  · exact propagateSimd_congr _ O P biases weights _ _
      (fun i hi => vnniRow_congr 32 _ _ _ (hprod i hi).1 hl)
  · unfold propagateAVX512
    by_cases hc64 : P % 64 = 0
    · simp only [if_pos hc64]
      exact propagateSimd_congr _ O P biases weights _ _
        (fun i hi => maddubsRow_congr 64 _ _ _ (hprod i hi).1 hl)
    · simp only [if_neg hc64]
      exact propagateSimd_congr _ O P biases weights _ _
        (fun i hi => maddubsRow_congr 32 _ _ _ (hprod i hi).1 hl)
  · unfold propagateAVX512vnni
    by_cases hc64 : P % 64 = 0
    · simp only [if_pos hc64]
      exact propagateSimd_congr _ O P biases weights _ _
        (fun i hi => vnniRow_congr 64 _ _ _ (hprod i hi).1 hl)
    · simp only [if_neg hc64]
      exact propagateSimd_congr _ O P biases weights _ _
        (fun i hi => vnniRow_congr 32 _ _ _ (hprod i hi).1 hl)
  · unfold propagateSSE2
    exact List.map_congr_left fun i hi =>
      sse2Row_congr 16 _ _ _ _ (hprod i (List.mem_range.mp hi)).1 hl
  · unfold propagateMMX
    exact List.map_congr_left fun i hi =>
      sse2Row_congr 8 _ _ _ _ (hprod i (List.mem_range.mp hi)).1 hl
  · unfold propagateNEON
    exact List.map_congr_left fun i hi =>
      neonRow_congr _ _ _ _ (hprod i (List.mem_range.mp hi)).2 hl

set_option maxRecDepth 40000 in
/-- Witness for the C6 theorem: the scenario layer, with zero padding bytes
versus garbage byte 99 in every padding position. -/
theorem c6_padding_bytes_no_influence_witness :
    propagateScalar 1 8 32 [10] scenarioWeights ([1, 2, 3, 4, 5, 6, 7, 8] ++ List.replicate 24 0)
      = propagateScalar 1 8 32 [10] scenarioWeights ([1, 2, 3, 4, 5, 6, 7, 8] ++ List.replicate 24 99) ∧
    propagateSSSE3 1 32 [10] scenarioWeights ([1, 2, 3, 4, 5, 6, 7, 8] ++ List.replicate 24 0)
      = propagateSSSE3 1 32 [10] scenarioWeights ([1, 2, 3, 4, 5, 6, 7, 8] ++ List.replicate 24 99) ∧
    propagateAVX2 1 32 [10] scenarioWeights ([1, 2, 3, 4, 5, 6, 7, 8] ++ List.replicate 24 0)
      = propagateAVX2 1 32 [10] scenarioWeights ([1, 2, 3, 4, 5, 6, 7, 8] ++ List.replicate 24 99) ∧
    propagateAVX2vnni 1 32 [10] scenarioWeights ([1, 2, 3, 4, 5, 6, 7, 8] ++ List.replicate 24 0)
      = propagateAVX2vnni 1 32 [10] scenarioWeights ([1, 2, 3, 4, 5, 6, 7, 8] ++ List.replicate 24 99) ∧
    propagateAVX512 1 32 [10] scenarioWeights ([1, 2, 3, 4, 5, 6, 7, 8] ++ List.replicate 24 0)
      = propagateAVX512 1 32 [10] scenarioWeights ([1, 2, 3, 4, 5, 6, 7, 8] ++ List.replicate 24 99) ∧
    propagateAVX512vnni 1 32 [10] scenarioWeights ([1, 2, 3, 4, 5, 6, 7, 8] ++ List.replicate 24 0)
      = propagateAVX512vnni 1 32 [10] scenarioWeights ([1, 2, 3, 4, 5, 6, 7, 8] ++ List.replicate 24 99) ∧
    propagateSSE2 1 32 [10] scenarioWeights ([1, 2, 3, 4, 5, 6, 7, 8] ++ List.replicate 24 0)
      = propagateSSE2 1 32 [10] scenarioWeights ([1, 2, 3, 4, 5, 6, 7, 8] ++ List.replicate 24 99) ∧
    propagateMMX 1 32 [10] scenarioWeights ([1, 2, 3, 4, 5, 6, 7, 8] ++ List.replicate 24 0)
      = propagateMMX 1 32 [10] scenarioWeights ([1, 2, 3, 4, 5, 6, 7, 8] ++ List.replicate 24 99) ∧
    propagateNEON 1 32 [10] scenarioWeights ([1, 2, 3, 4, 5, 6, 7, 8] ++ List.replicate 24 0)
      = propagateNEON 1 32 [10] scenarioWeights ([1, 2, 3, 4, 5, 6, 7, 8] ++ List.replicate 24 99) :=
  c6_padding_bytes_no_influence 1 8 32 [10] scenarioWeights
    [1, 2, 3, 4, 5, 6, 7, 8] (List.replicate 24 0) (List.replicate 24 99)
    (by decide) (by decide) (by decide) (by decide)
    (fun j hj => by rw [Nat.lt_one_iff.mp hj]; decide)

/-! ## Claim C3: failure propagation in `ReadParameters` -/

/-- **C3**: whenever the predecessor's `ReadParameters` fails, this layer's
`ReadParameters` also returns failure, reads nothing further from the stream
(the returned stream state is exactly the one the predecessor left), and
leaves its own biases and weights unmodified. -/
theorem c3_failure_propagation (prevRead : ByteStream → Bool × ByteStream) (O P : Nat)
    (L : LayerData) (s s' : ByteStream) (h : prevRead s = (false, s')) :
    ReadParameters prevRead O P L s = (false, L, s') := by
  unfold ReadParameters
  rw [h]
  rfl

/-- Witness for C3 at a concrete always-failing predecessor and stream. -/
theorem c3_failure_propagation_witness :
    ReadParameters (fun s => (false, s)) 2 4 ⟨[7], [8]⟩ ⟨[1, 2, 3], false⟩
      = (false, ⟨[7], [8]⟩, ⟨[1, 2, 3], false⟩) :=
  c3_failure_propagation (fun s => (false, s)) 2 4 ⟨[7], [8]⟩ ⟨[1, 2, 3], false⟩
    ⟨[1, 2, 3], false⟩ rfl

/-! ## Claim C5: the structural hash -/

/-- **C5**: `GetHashValue` equals
`(0xCC03DAE4 + output_dimensions) XOR (prev >> 1) XOR (prev << 31)` in 32-bit
wraparound arithmetic, and any two layer chains with identical dimension
sequences yield identical hash values, independent of weight and bias
contents. -/
theorem c5_hash_contract (p O base : Nat) (ls1 ls2 : List (Nat × LayerData))
    (hp : p < 4294967296) (hdim : ls1.map Prod.fst = ls2.map Prod.fst) :
    GetHashValue p O
      = ((0xCC03DAE4 + O) % 4294967296) ^^^ ((p >>> 1) % 4294967296)
          ^^^ ((p <<< 31) % 4294967296)
    ∧ layerChainHash base ls1 = layerChainHash base ls2 := by
  constructor
  · unfold GetHashValue
    have hs : (p >>> 1) % 4294967296 = p >>> 1 := by
      apply Nat.mod_eq_of_lt
      have hdiv : p >>> 1 = p / 2 := by
        simp [Nat.shiftRight_eq_div_pow]
      omega
    rw [hs]
  · unfold layerChainHash
    rw [hdim]

/-- Witness for C5: two single-layer chains with output dimension 4 but
different weights and biases hash identically. -/
theorem c5_hash_contract_witness :
    GetHashValue 3422804708 32
      = ((0xCC03DAE4 + 32) % 4294967296) ^^^ ((3422804708 >>> 1) % 4294967296)
          ^^^ ((3422804708 <<< 31) % 4294967296)
    ∧ layerChainHash 99 [(4, ⟨[1], [2]⟩)] = layerChainHash 99 [(4, ⟨[7, 7], [8, 8]⟩)] :=
  c5_hash_contract 3422804708 32 99 [(4, ⟨[1], [2]⟩)] [(4, ⟨[7, 7], [8, 8]⟩)]
    (by decide) (by decide)

/-! ## Claim C7: buffer layout -/

/-- The rounded self size always holds the layer's raw output. -/
theorem output_le_kSelfBufferSize (O : Nat) : O * 4 ≤ kSelfBufferSize O := by
  unfold kSelfBufferSize CeilToMultiple kCacheLineSize
  omega

theorem chainOffset_succ (dims : List Nat) (k : Nat) (hk : k < dims.length) :
    chainOffset dims (k + 1) = chainOffset dims k + kSelfBufferSize (dims.getD k 0) := by
  unfold chainOffset
  rw [List.getD_eq_getElem _ _ hk]
  rw [List.take_succ, List.getElem?_eq_getElem hk]
  rw [List.map_append, List.sum_append]
  simp

theorem chainOffset_mono (dims : List Nat) {m l : Nat} (h : m ≤ l) :
    chainOffset dims m ≤ chainOffset dims l := by
  unfold chainOffset
  conv_rhs => rw [← List.take_append_drop m (dims.take l)]
  rw [List.take_take, min_eq_left h, List.map_append, List.sum_append]
  omega

/-- **C7** (counterexample): predecessors do *not* occupy the lower offsets of
the shared buffer: in a two-layer chain the outermost layer writes at offset 0
and its predecessor at offset `kSelfBufferSize` (the source passes
`buffer + kSelfBufferSize` to the predecessor), so the predecessor's offset is
not below this layer's. -/
theorem c7_counterexample : ¬ (chainOffset [4, 4] 1 < chainOffset [4, 4] 0) := by
  decide

/-- **C7** (amended): each layer writes only into its own fixed-offset
sub-region, the sub-regions are pairwise disjoint (the region of every layer
ends before the region of any layer deeper in the chain begins, so
predecessors occupy the *higher* offsets), each region is sized to the
layer's output rounded up to a cache-line multiple, and `kBufferSize` is the
predecessor's buffer size plus this layer's rounded self size. -/
theorem c7_buffer_layout (dims : List Nat) (base O k l : Nat)
    (hk : k < l) (hl : l < dims.length) :
    chainOffset dims k + kSelfBufferSize (dims.getD k 0) ≤ chainOffset dims l
    ∧ chainBufferSize base (O :: dims) = chainBufferSize base dims + kSelfBufferSize O
    ∧ O * 4 ≤ kSelfBufferSize O ∧ kSelfBufferSize O % kCacheLineSize = 0 := by
  refine ⟨?_, rfl, output_le_kSelfBufferSize O, ?_⟩
  · calc chainOffset dims k + kSelfBufferSize (dims.getD k 0)
    _ = chainOffset dims (k + 1) := (chainOffset_succ dims k (by omega)).symm
    _ ≤ chainOffset dims l := chainOffset_mono dims hk
  · unfold kSelfBufferSize CeilToMultiple kCacheLineSize
    omega

/-- Witness for C7 on the concrete two-layer chain of 4-wide layers. -/
theorem c7_buffer_layout_witness :
    chainOffset [4, 4] 0 + kSelfBufferSize ([4, 4].getD 0 0) ≤ chainOffset [4, 4] 1
    ∧ chainBufferSize 320 (8 :: [4, 4]) = chainBufferSize 320 [4, 4] + kSelfBufferSize 8
    ∧ 8 * 4 ≤ kSelfBufferSize 8 ∧ kSelfBufferSize 8 % kCacheLineSize = 0 :=
  c7_buffer_layout [4, 4] 320 8 0 1 (by decide) (by decide)

/-! ## Claim C9: the unreachable assert branch -/

/-- **C9**: under the architecture invariant that `kOutputDimensions` is
exactly 1 or a multiple of the vector width (which is itself a multiple of 4),
the `assert(false)` branch of the vectorized `Propagate` dispatch (reached
only when `kOutputDimensions` is neither 1 nor a multiple of 4, modelled as
`none`) is unreachable. -/
theorem c9_assert_unreachable (rowFn : List Nat → List Int → List Int)
    (kSimdWidth O P : Nat) (biases weights : List Int) (input : List Nat)
    (h4 : 4 ∣ kSimdWidth) (hO : O = 1 ∨ kSimdWidth ∣ O) :
    (propagateSimd rowFn O P biases weights input).isSome := by
  unfold propagateSimd
  rcases hO with h | h
  · subst h
    norm_num
  · obtain ⟨k, rfl⟩ := h4
    obtain ⟨m, rfl⟩ := h
    have hmod : 4 * k * m % 4 = 0 := by
      rw [Nat.mul_assoc]
      exact Nat.mul_mod_right 4 (k * m)
    rw [if_pos hmod]
    rfl

/-- Witness for C9 at `kSimdWidth = 16` and `kOutputDimensions = 32`. -/
theorem c9_assert_unreachable_witness :
    (propagateSimd (maddubsRow 16) 32 32 [] [] []).isSome :=
  c9_assert_unreachable (maddubsRow 16) 16 32 32 [] [] []
    (by decide) (Or.inr (by decide))

/-! ## Claim C8: `Propagate` is total, pure, and frame-bounded -/

theorem writeWords_frame : ∀ (vals : List Int) (buf : Nat → Nat) (base a : Nat),
    (a < base ∨ base + 4 * vals.length ≤ a) → writeWords buf base vals a = buf a
  | [], _, _, _, _ => rfl
  | v :: vs, buf, base, a, h => by
      show writeWords (writeWord buf base v) (base + 4) vs a = buf a
      have hlen : 4 * (v :: vs).length = 4 * vs.length + 4 := by
        simp [List.length_cons]
        ring
      rw [writeWords_frame vs (writeWord buf base v) (base + 4) a (by omega)]
      unfold writeWord
      rw [if_neg (by omega)]

/-- **C8**: for every fully loaded layer and correctly sized buffer,
`Propagate` always succeeds (it is a total function producing all
`output_dimensions` values and returning the output pointer), has no side
effect other than writing within this layer's `kBufferSize` region of the
supplied buffer (given that the predecessor respects its own region), and
leaves the layer's biases, weights, and predecessor state unchanged (the
method is `const`: the returned layer is the argument itself). -/
theorem c8_propagate_total_and_frame (prev : PrevModel) (O d P : Nat) (L : LayerData)
    (hframe : ∀ (f : List Nat) (buf : Nat → Nat) (b a : Nat),
      a < b ∨ b + prev.bufferSize ≤ a → (prev.propagate f buf b).1 a = buf a)
    (features : List Nat) (buf : Nat → Nat) (base : Nat) :
    (Propagate prev O d P L features buf base).1 = L ∧
    (Propagate prev O d P L features buf base).2.2 = base ∧
    (propagateScalar O d P L.biases L.weights
      (prev.propagate features buf (base + kSelfBufferSize O)).2).length = O ∧
    (∀ a, a < base ∨ base + (prev.bufferSize + kSelfBufferSize O) ≤ a →
      (Propagate prev O d P L features buf base).2.1 a = buf a) := by
  refine ⟨rfl, rfl, by simp [propagateScalar], ?_⟩
  intro a ha
  have hself := output_le_kSelfBufferSize O
  show writeWords (prev.propagate features buf (base + kSelfBufferSize O)).1 base
      (propagateScalar O d P L.biases L.weights
        (prev.propagate features buf (base + kSelfBufferSize O)).2) a = buf a
  have hlen : (propagateScalar O d P L.biases L.weights
      (prev.propagate features buf (base + kSelfBufferSize O)).2).length = O := by
    simp [propagateScalar]
  rw [writeWords_frame _ _ _ _ (by rw [hlen]; omega)]
  exact hframe features buf (base + kSelfBufferSize O) a (by omega)

/-- Witness for C8: a concrete one-layer chain over a trivial predecessor that
returns the features unchanged and touches nothing. -/
theorem c8_propagate_total_and_frame_witness :
    (Propagate ⟨2, 0, fun f buf _ => (buf, f)⟩ 1 2 2 ⟨[3], [4, 5]⟩ [1, 2] (fun _ => 0) 0).1
      = ⟨[3], [4, 5]⟩ ∧
    (Propagate ⟨2, 0, fun f buf _ => (buf, f)⟩ 1 2 2 ⟨[3], [4, 5]⟩ [1, 2] (fun _ => 0) 0).2.2 = 0 ∧
    (propagateScalar 1 2 2 (⟨[3], [4, 5]⟩ : LayerData).biases (⟨[3], [4, 5]⟩ : LayerData).weights
      ((⟨2, 0, fun f buf _ => (buf, f)⟩ : PrevModel).propagate [1, 2] (fun _ => 0)
        (0 + kSelfBufferSize 1)).2).length = 1 ∧
    (∀ a, a < 0 ∨ 0 + ((⟨2, 0, fun f buf _ => (buf, f)⟩ : PrevModel).bufferSize
        + kSelfBufferSize 1) ≤ a →
      (Propagate ⟨2, 0, fun f buf _ => (buf, f)⟩ 1 2 2 ⟨[3], [4, 5]⟩ [1, 2] (fun _ => 0) 0).2.1 a
        = (fun _ => 0 : Nat → Nat) a) :=
  c8_propagate_total_and_frame ⟨2, 0, fun f buf _ => (buf, f)⟩ 1 2 2 ⟨[3], [4, 5]⟩
    (fun _ _ _ _ _ => rfl) [1, 2] (fun _ => 0) 0

/-! ## Claim C10: unconditional reads after predecessor success -/

theorem readSeq_length (r : ByteStream → Int × ByteStream) :
    ∀ (n : Nat) (s : ByteStream), (readSeq r n s).1.length = n
  | 0, _ => rfl
  | n + 1, s => by
      show ((r s).1 :: (readSeq r n (r s).2).1).length = n + 1
      rw [List.length_cons, readSeq_length r n (r s).2]

theorem read_i32_consume (s : ByteStream) (h : (read_little_endian_i32 s).2.fail = false) :
    s.fail = false ∧ s.data.length = 4 + (read_little_endian_i32 s).2.data.length := by
  unfold read_little_endian_i32 readBytes at h ⊢
  by_cases hf : s.fail
  · simp [hf] at h
  · by_cases hn : 4 ≤ s.data.length
    · simp [hf, hn]
    · simp [hf, hn] at h

theorem read_i8_consume (s : ByteStream) (h : (read_little_endian_i8 s).2.fail = false) :
    s.fail = false ∧ s.data.length = 1 + (read_little_endian_i8 s).2.data.length := by
  unfold read_little_endian_i8 readBytes at h ⊢
  by_cases hf : s.fail
  · simp [hf] at h
  · by_cases hn : 1 ≤ s.data.length
    · simp [hf, hn]
    · simp [hf, hn] at h

theorem readSeq_consume (r : ByteStream → Int × ByteStream) (k : Nat)
    (hr : ∀ s, (r s).2.fail = false →
      s.fail = false ∧ s.data.length = k + (r s).2.data.length) :
    ∀ (n : Nat) (s : ByteStream), (readSeq r n s).2.fail = false →
      s.fail = false ∧ s.data.length = k * n + (readSeq r n s).2.data.length
  | 0, s, h => ⟨h, by simp [readSeq]⟩
  | n + 1, s, h => by
      have hstep : (readSeq r (n + 1) s).2 = (readSeq r n (r s).2).2 := rfl
      rw [hstep] at h
      have ih := readSeq_consume r k hr n (r s).2 h
      have h0 := hr s ih.1
      refine ⟨h0.1, ?_⟩
      rw [hstep, h0.2, ih.2, Nat.mul_succ]
      ring

/-- **C10**: when the predecessor's `ReadParameters` succeeds leaving stream
state `s1`, this layer's `ReadParameters` unconditionally performs all
`output_dimensions` bias reads followed by all
`output_dimensions × padded_input_dimensions` weight reads with no early exit
(the resulting arrays hold exactly the values those reads deliver, even if the
stream failed partway — so a failing call can overwrite them), and it returns
success if and only if the stream's fail flag is unset after the final read,
in which case exactly `4·O + O·P` bytes were consumed. -/
theorem c10_reads_unconditional (prevRead : ByteStream → Bool × ByteStream) (O P : Nat)
    (L : LayerData) (s s1 : ByteStream) (h : prevRead s = (true, s1)) :
    ReadParameters prevRead O P L s
      = (!(readSeq read_little_endian_i8 (O * P) (readSeq read_little_endian_i32 O s1).2).2.fail,
         ⟨(readSeq read_little_endian_i32 O s1).1,
          (readSeq read_little_endian_i8 (O * P) (readSeq read_little_endian_i32 O s1).2).1⟩,
         (readSeq read_little_endian_i8 (O * P) (readSeq read_little_endian_i32 O s1).2).2) ∧
    (readSeq read_little_endian_i32 O s1).1.length = O ∧
    (readSeq read_little_endian_i8 (O * P) (readSeq read_little_endian_i32 O s1).2).1.length
      = O * P ∧
    ((readSeq read_little_endian_i8 (O * P) (readSeq read_little_endian_i32 O s1).2).2.fail = false →
      s1.fail = false ∧
      s1.data.length = (4 * O + O * P)
        + (readSeq read_little_endian_i8 (O * P)
            (readSeq read_little_endian_i32 O s1).2).2.data.length) := by
  refine ⟨?_, readSeq_length _ O s1, readSeq_length _ (O * P) _, ?_⟩
  · unfold ReadParameters
    rw [h]
    rfl
  · intro hfail
    have hw := readSeq_consume read_little_endian_i8 1 read_i8_consume (O * P)
      (readSeq read_little_endian_i32 O s1).2 hfail
    have hb := readSeq_consume read_little_endian_i32 4 read_i32_consume O s1 hw.1
    refine ⟨hb.1, ?_⟩
    rw [hb.2, hw.2]
    ring

/-- Witness for C10: a concrete identity predecessor over a stream holding one
bias, two weights, and two trailing bytes (`O = 1`, `P = 2`). -/
theorem c10_reads_unconditional_witness :
    ReadParameters (fun s => (true, s)) 1 2 ⟨[], []⟩ ⟨[5, 0, 0, 0, 1, 2, 9, 9], false⟩
      = (!(readSeq read_little_endian_i8 (1 * 2)
            (readSeq read_little_endian_i32 1 ⟨[5, 0, 0, 0, 1, 2, 9, 9], false⟩).2).2.fail,
         ⟨(readSeq read_little_endian_i32 1 ⟨[5, 0, 0, 0, 1, 2, 9, 9], false⟩).1,
          (readSeq read_little_endian_i8 (1 * 2)
            (readSeq read_little_endian_i32 1 ⟨[5, 0, 0, 0, 1, 2, 9, 9], false⟩).2).1⟩,
         (readSeq read_little_endian_i8 (1 * 2)
            (readSeq read_little_endian_i32 1 ⟨[5, 0, 0, 0, 1, 2, 9, 9], false⟩).2).2) ∧
    (readSeq read_little_endian_i32 1 ⟨[5, 0, 0, 0, 1, 2, 9, 9], false⟩).1.length = 1 ∧
    (readSeq read_little_endian_i8 (1 * 2)
        (readSeq read_little_endian_i32 1 ⟨[5, 0, 0, 0, 1, 2, 9, 9], false⟩).2).1.length = 1 * 2 ∧
    ((readSeq read_little_endian_i8 (1 * 2)
        (readSeq read_little_endian_i32 1 ⟨[5, 0, 0, 0, 1, 2, 9, 9], false⟩).2).2.fail = false →
      (⟨[5, 0, 0, 0, 1, 2, 9, 9], false⟩ : ByteStream).fail = false ∧
      (⟨[5, 0, 0, 0, 1, 2, 9, 9], false⟩ : ByteStream).data.length = (4 * 1 + 1 * 2)
        + (readSeq read_little_endian_i8 (1 * 2)
            (readSeq read_little_endian_i32 1 ⟨[5, 0, 0, 0, 1, 2, 9, 9], false⟩).2).2.data.length) :=
  c10_reads_unconditional (fun s => (true, s)) 1 2 ⟨[], []⟩
    ⟨[5, 0, 0, 0, 1, 2, 9, 9], false⟩ ⟨[5, 0, 0, 0, 1, 2, 9, 9], false⟩ rfl

/-! ## Claim C4: serialization round trip -/

theorem leNat_encodeLE32 (x : Int) : leNat (encodeLE32 x) = (x % 4294967296).toNat := by
  have h0 : 0 ≤ x % 4294967296 := Int.emod_nonneg x (by norm_num)
  have h1 : x % 4294967296 < 4294967296 := Int.emod_lt_of_pos x (by norm_num)
  have hlt : (x % 4294967296).toNat < 4294967296 := by omega
  simp only [encodeLE32, leNat]
  omega

theorem toInt32_emod (x : Int) (h1 : -2147483648 ≤ x) (h2 : x < 2147483648) :
    toInt32 ((x % 4294967296).toNat) = x := by
  have h0 : 0 ≤ x % 4294967296 := Int.emod_nonneg x (by norm_num)
  have hu : ((x % 4294967296).toNat : Int) = x % 4294967296 := Int.toNat_of_nonneg h0
  unfold toInt32
  split <;> omega

theorem read_i32_encode (x : Int) (rest : List Nat)
    (h1 : -2147483648 ≤ x) (h2 : x < 2147483648) :
    read_little_endian_i32 ⟨encodeLE32 x ++ rest, false⟩ = (x, ⟨rest, false⟩) := by
  unfold read_little_endian_i32 readBytes
  have hlen4 : (encodeLE32 x).length = 4 := rfl
  have hge : 4 ≤ (encodeLE32 x ++ rest).length := by
    rw [List.length_append, hlen4]
    omega
  rw [if_neg (by simp), if_pos hge]
  have htake : (encodeLE32 x ++ rest).take 4 = encodeLE32 x := by
    rw [← hlen4]
    exact List.take_left _ _
  have hdrop : (encodeLE32 x ++ rest).drop 4 = rest := by
    rw [← hlen4]
    exact List.drop_left _ _
  rw [htake, hdrop]
  show (toInt32 (leNat (encodeLE32 x)), (⟨rest, false⟩ : ByteStream)) = (x, ⟨rest, false⟩)
  rw [leNat_encodeLE32, toInt32_emod x h1 h2]

theorem read_i8_encode (x : Int) (rest : List Nat) (h1 : -128 ≤ x) (h2 : x < 128) :
    read_little_endian_i8 ⟨encodeI8 x ++ rest, false⟩ = (x, ⟨rest, false⟩) := by
  unfold read_little_endian_i8 readBytes
  have hlen1 : (encodeI8 x).length = 1 := rfl
  have hge : 1 ≤ (encodeI8 x ++ rest).length := by
    rw [List.length_append, hlen1]
    omega
  rw [if_neg (by simp), if_pos hge]
  have htake : (encodeI8 x ++ rest).take 1 = encodeI8 x := by
    rw [← hlen1]
    exact List.take_left _ _
  have hdrop : (encodeI8 x ++ rest).drop 1 = rest := by
    rw [← hlen1]
    exact List.drop_left _ _
  rw [htake, hdrop]
  show (toInt8 (leNat (encodeI8 x)), (⟨rest, false⟩ : ByteStream)) = (x, ⟨rest, false⟩)
  have h0 : 0 ≤ x % 256 := Int.emod_nonneg x (by norm_num)
  have hlt : x % 256 < 256 := Int.emod_lt_of_pos x (by norm_num)
  have hu : ((x % 256).toNat : Int) = x % 256 := Int.toNat_of_nonneg h0
  have hval : leNat (encodeI8 x) = (x % 256).toNat := by
    simp [encodeI8, leNat]
  have hv : toInt8 ((x % 256).toNat) = x := by
    unfold toInt8
    split <;> omega
  rw [hval, hv]

theorem readSeq_encode (r : ByteStream → Int × ByteStream) (enc : Int → List Nat)
    (Q : Int → Prop)
    (hr : ∀ (x : Int) (rest : List Nat), Q x → r ⟨enc x ++ rest, false⟩ = (x, ⟨rest, false⟩)) :
    ∀ (xs : List Int) (rest : List Nat), (∀ x ∈ xs, Q x) →
      readSeq r xs.length ⟨(xs.map enc).flatten ++ rest, false⟩ = (xs, ⟨rest, false⟩)
  | [], rest, _ => by simp [readSeq]
  | x :: xs, rest, hq => by
      have hx := hr x ((xs.map enc).flatten ++ rest) (hq x (by simp))
      have ih := readSeq_encode r enc Q hr xs rest (fun y hy => hq y (by simp [hy]))
      have hflat : ((x :: xs).map enc).flatten ++ rest
          = enc x ++ ((xs.map enc).flatten ++ rest) := by
        simp
      have hstep : ∀ s : ByteStream, readSeq r (x :: xs).length s
          = ((r s).1 :: (readSeq r xs.length (r s).2).1, (readSeq r xs.length (r s).2).2) := by
        intro s
        rfl
      rw [hstep, hflat, hx, ih]

/-- **C4**: serializing `O` int32 biases and `O × P` int8 weights to the
documented layout (biases first, little-endian 32-bit, then weights row-major
as 8-bit, no padding or delimiters) and running `ReadParameters` on a stream
containing exactly those bytes after the predecessor's block succeeds and
reproduces bit-identical bias and weight arrays. -/
theorem c4_roundtrip (prevRead : ByteStream → Bool × ByteStream)
    (prevBlock extra : List Nat) (O P : Nat) (L0 : LayerData)
    (biases weights : List Int)
    (hb : biases.length = O) (hw : weights.length = O * P)
    (hbr : ∀ b ∈ biases, -2147483648 ≤ b ∧ b < 2147483648)
    (hwr : ∀ x ∈ weights, -128 ≤ x ∧ x < 128)
    (hprev : ∀ rest : List Nat, prevRead ⟨prevBlock ++ rest, false⟩ = (true, ⟨rest, false⟩)) :
    ReadParameters prevRead O P L0
      ⟨prevBlock ++ (serializeLayer biases weights ++ extra), false⟩
      = (true, ⟨biases, weights⟩, ⟨extra, false⟩) := by
  unfold ReadParameters
  rw [hprev (serializeLayer biases weights ++ extra)]
  have hser : serializeLayer biases weights ++ extra
      = (biases.map encodeLE32).flatten ++ ((weights.map encodeI8).flatten ++ extra) := by
    unfold serializeLayer
    rw [List.append_assoc]
  have hbread := readSeq_encode read_little_endian_i32 encodeLE32
    (fun x => -2147483648 ≤ x ∧ x < 2147483648)
    (fun x rest hx => read_i32_encode x rest hx.1 hx.2)
    biases ((weights.map encodeI8).flatten ++ extra) hbr
  have hwread := readSeq_encode read_little_endian_i8 encodeI8
    (fun x => -128 ≤ x ∧ x < 128)
    (fun x rest hx => read_i8_encode x rest hx.1 hx.2)
    weights extra hwr
  rw [hb] at hbread
  rw [hw] at hwread
  simp only [hser, hbread, hwread]
  rfl

/-- Witness for C4: a concrete `O = 2`, `P = 4` layer serialized after a
4-byte predecessor block, with two trailing bytes left on the stream. -/
theorem c4_roundtrip_witness :
    ReadParameters
      (fun s => (true, ⟨s.data.drop 4, s.fail⟩)) 2 4 ⟨[], []⟩
      ⟨[0, 0, 0, 0] ++ (serializeLayer [5, -7] [1, -2, 3, -4, 5, -6, 7, -8] ++ [9, 9]), false⟩
      = (true, ⟨[5, -7], [1, -2, 3, -4, 5, -6, 7, -8]⟩, ⟨[9, 9], false⟩) :=
  c4_roundtrip (fun s => (true, ⟨s.data.drop 4, s.fail⟩)) [0, 0, 0, 0] [9, 9] 2 4 ⟨[], []⟩
    [5, -7] [1, -2, 3, -4, 5, -6, 7, -8]
    (by decide) (by decide) (by decide) (by decide) (fun rest => rfl)

end NNUE
